import Mathlib

/-!
Verification development for the synapse-miner repository.

The definitions below are shallow embeddings of the Python sources:
strings are modelled as `List Char`, regular-expression scans as explicit
left-to-right scanners, and the stateful streaming splitter as a recursion
on the list of read chunks.  Sections:

* character/list utilities mirroring `str.strip`, `str.lower`, `str.find`;
* the two identifier scanners (`re.finditer` with pattern `syn\d{7,12}`,
  with and without the `(?<!\d)`/`(?!\d)` boundary guards);
* `extract_context` and `SynapseMiner.extract_synapse_ids_with_context`
  from `src/core.py` / `src/synapse_miner/utils/text_processing.py`;
* `process_article` from `src/synapse_miner/core.py`;
* `SynapseMiner._iter_articles` (the streaming article splitter);
* `combine_results` from `src/synapse_miner/utils/data_utils.py`.
-/

namespace SynMiner

/-- Whitespace predicate used to model Python's `str.strip` and the `\s`
character class on the ASCII subset relevant to the corpus. -/
def isWs (c : Char) : Bool := c.isWhitespace

/-- Model of Python `str.lstrip()`: drop leading whitespace. -/
def lstrip (l : List Char) : List Char := l.dropWhile isWs

/-- Model of Python `str.rstrip()`: drop trailing whitespace. -/
def rstrip (l : List Char) : List Char := (lstrip l.reverse).reverse

/-- Model of Python `str.strip()`: drop whitespace on both ends. -/
def strip (l : List Char) : List Char := rstrip (lstrip l)

/-- Model of Python `str.lower()` on the ASCII subset. -/
def lowerList (l : List Char) : List Char := l.map Char.toLower

/-- Model of Python `str.find`: least index at which `pat` occurs as a
contiguous substring of the text, if any. -/
def findSub (pat : List Char) : List Char → Option Nat
  | [] => if pat.isEmpty then some 0 else none
  | c :: cs =>
    if pat.isPrefixOf (c :: cs) then some 0 else (findSub pat cs).map (· + 1)

/-- Model of Python's `in` test on strings. -/
def containsSub (pat text : List Char) : Bool := (findSub pat text).isSome

/-- Occurrence of `pat` in `text` at index `i`. -/
def occursAt (pat text : List Char) (i : Nat) : Prop := pat <+: text.drop i

instance (pat text : List Char) (i : Nat) : Decidable (occursAt pat text i) := by
  unfold occursAt; infer_instance

theorem findSub_some_iff (pat text : List Char) (i : Nat) :
    findSub pat text = some i ↔
      occursAt pat text i ∧ ∀ j < i, ¬ occursAt pat text j := by
  induction text generalizing i with
  | nil =>
    by_cases hp : pat.isEmpty = true
    · have hpe : pat = [] := by simpa using hp
      subst hpe
      constructor
      · intro h
        have h0 : i = 0 := by simpa [findSub] using h.symm
        subst h0
        exact ⟨by simp [occursAt], by omega⟩
      · rintro ⟨-, hmin⟩
        rcases Nat.eq_zero_or_pos i with h0 | h0
        · subst h0; simp [findSub]
        · exact absurd (by simp [occursAt] : occursAt [] [] 0) (hmin 0 h0)
    · have hp' : pat.isEmpty = false := by simpa using hp
      have hpe : pat ≠ [] := by simpa using hp
      constructor
      · intro h
        simp [findSub, hp'] at h
      · rintro ⟨hocc, -⟩
        unfold occursAt at hocc
        simp only [List.drop_nil] at hocc
        exact absurd (List.prefix_nil.1 hocc) hpe
  | cons c cs ih =>
    by_cases hpre : pat.isPrefixOf (c :: cs) = true
    · have hp : pat <+: c :: cs := by
        rwa [List.isPrefixOf_iff_prefix] at hpre
      simp only [findSub, hpre, if_true]
      constructor
      · rintro h
        injection h with h; subst h
        exact ⟨by simpa [occursAt] using hp, by omega⟩
      · rintro ⟨_, hmin⟩
        by_contra hne
        have hipos : 0 < i := by
          rcases Nat.eq_zero_or_pos i with h0 | h0
          · exact absurd (congrArg some h0.symm) hne
          · exact h0
        exact hmin 0 hipos (by simpa [occursAt] using hp)
    · have hpre' : pat.isPrefixOf (c :: cs) = false := Bool.eq_false_iff.2 hpre
      have hp : ¬ pat <+: c :: cs := by
        rw [← List.isPrefixOf_iff_prefix, hpre']
        simp
      simp only [findSub, hpre', Bool.false_eq_true, if_false]
      constructor
      · intro h
        rcases Option.map_eq_some'.1 h with ⟨j, hj, rfl⟩
        rcases (ih j).1 hj with ⟨hocc, hmin⟩
        refine ⟨by simpa [occursAt] using hocc, ?_⟩
        intro k hk
        rcases k with _ | k
        · simpa [occursAt] using hp
        · exact fun hoc => hmin k (by omega) (by simpa [occursAt] using hoc)
      · rintro ⟨hocc, hmin⟩
        rcases i with _ | i
        · exact absurd (by simpa [occursAt] using hocc) hp
        · have : findSub pat cs = some i := by
            refine (ih i).2 ⟨by simpa [occursAt] using hocc, ?_⟩
            intro j hj hoc
            exact hmin (j + 1) (by omega) (by simpa [occursAt] using hoc)
          simp [this]

theorem findSub_none_iff (pat text : List Char) :
    findSub pat text = none ↔ ∀ j, ¬ occursAt pat text j := by
  constructor
  · intro h j hocc
    induction text generalizing j with
    | nil =>
      rcases pat with _ | ⟨c, pat⟩
      · simp [findSub] at h
      · unfold occursAt at hocc
        simp only [List.drop_nil] at hocc
        simp [List.prefix_nil] at hocc
    | cons c cs ih =>
      by_cases hpre : pat.isPrefixOf (c :: cs) = true
      · simp [findSub, hpre] at h
      · have hpre' : pat.isPrefixOf (c :: cs) = false := Bool.eq_false_iff.2 hpre
        simp only [findSub, hpre', Bool.false_eq_true, if_false,
          Option.map_eq_none'] at h
        rcases j with _ | j
        · have : pat <+: c :: cs := by simpa [occursAt] using hocc
          rw [← List.isPrefixOf_iff_prefix, hpre'] at this
          simp at this
        · exact ih h j (by simpa [occursAt] using hocc)
  · intro h
    rcases hf : findSub pat text with _ | i
    · rfl
    · exact absurd ((findSub_some_iff pat text i).1 hf).1 (h i)

theorem containsSub_iff (pat text : List Char) :
    containsSub pat text = true ↔ ∃ i, occursAt pat text i := by
  unfold containsSub
  rcases hf : findSub pat text with _ | i
  · simp only [Option.isSome_none, Bool.false_eq_true, false_iff]
    rintro ⟨i, hi⟩
    exact (findSub_none_iff pat text).1 hf i hi
  · simp only [Option.isSome_some, true_iff]
    exact ⟨i, ((findSub_some_iff pat text i).1 hf).1⟩

theorem occursAt_length {pat text : List Char} {i : Nat} (hne : pat ≠ [])
    (h : occursAt pat text i) : i + pat.length ≤ text.length := by
  unfold occursAt at h
  have hlen := h.length_le
  rw [List.length_drop] at hlen
  rcases Nat.le_total i text.length with hi | hi
  · omega
  · rw [List.drop_eq_nil_of_le hi] at h
    exact absurd (List.prefix_nil.1 h) hne

theorem containsSub_length {pat text : List Char} (hne : pat ≠ [])
    (h : containsSub pat text = true) : pat.length ≤ text.length := by
  rcases (containsSub_iff pat text).1 h with ⟨i, hi⟩
  have := occursAt_length hne hi
  omega

/-- Length of the maximal run of decimal digits at the head of the list. -/
def digitRun : List Char → Nat
  | [] => 0
  | c :: cs => if c.isDigit then digitRun cs + 1 else 0

/-- Case-insensitive test that the list begins with the letters `syn`,
modelling the literal `syn` under `re.IGNORECASE`. -/
def synCIB : List Char → Bool
  | s :: y :: n :: _ =>
    (s == 's' || s == 'S') && (y == 'y' || y == 'Y') && (n == 'n' || n == 'N')
  | _ => false

/-- Model of `re.finditer` with the pattern `syn\d{7,12}` (IGNORECASE, no
boundary guards), as compiled in `SynapseMiner.__init__` of `src/core.py`:
a left-to-right scan that at each position takes the greedy match (at most
12 digits) and resumes after it. Produces `(start position, matched text)`
pairs. -/
def finditerPlain : List Char → Nat → List (Nat × List Char)
  | [], _ => []
  | c :: rest, pos =>
    if synCIB (c :: rest) ∧ 7 ≤ digitRun ((c :: rest).drop 3) then
      (pos, (c :: rest).take (3 + min (digitRun ((c :: rest).drop 3)) 12)) ::
        finditerPlain ((c :: rest).drop (3 + min (digitRun ((c :: rest).drop 3)) 12))
          (pos + (3 + min (digitRun ((c :: rest).drop 3)) 12))
    else
      finditerPlain rest (pos + 1)
termination_by cs _ => cs.length
decreasing_by
  all_goals simp [List.length_drop]

/-- Model of `re.finditer` with the guarded pattern
`(?<!\d)syn\d{7,12}(?!\d)` (IGNORECASE) used by `process_article` in
`src/synapse_miner/core.py`.  The flag `prevDigit` records whether the
character immediately before the current position is a digit (the
lookbehind); the lookahead forces the whole digit run, of length 7 to 12,
to be consumed. -/
def finditerGuard : Bool → List Char → Nat → List (Nat × List Char)
  | _, [], _ => []
  | prevDigit, c :: rest, pos =>
    if ¬ prevDigit ∧ synCIB (c :: rest) ∧ 7 ≤ digitRun ((c :: rest).drop 3) ∧
        digitRun ((c :: rest).drop 3) ≤ 12 then
      (pos, (c :: rest).take (3 + digitRun ((c :: rest).drop 3))) ::
        finditerGuard true ((c :: rest).drop (3 + digitRun ((c :: rest).drop 3)))
          (pos + (3 + digitRun ((c :: rest).drop 3)))
    else
      finditerGuard c.isDigit rest (pos + 1)
termination_by _ cs _ => cs.length
decreasing_by
  all_goals simp [List.length_drop]

/-- Result of `extract_context` (a dict with keys before/after/full in
`src/synapse_miner/utils/text_processing.py`). -/
structure Context where
  before : List Char
  after : List Char
  full : List Char
deriving Repr, DecidableEq

/-- Model of `extract_context(text, start_pos, end_pos, context_size)` from
`src/synapse_miner/utils/text_processing.py`.  Python's
`max(0, start_pos - context_size)` is truncated subtraction on `Nat`. -/
def extract_context (text : List Char) (startPos endPos contextSize : Nat) :
    Context :=
  if text.isEmpty then ⟨[], [], []⟩
  else
    let contextStart := startPos - contextSize
    let contextEnd := min text.length (endPos + contextSize)
    let before := strip ((text.take startPos).drop contextStart)
    let after := strip ((text.take contextEnd).drop endPos)
    let target := (text.take endPos).drop startPos
    let full := strip (before ++ ' ' :: target ++ ' ' :: after)
    ⟨before, after, full⟩

/-- One finding of the simple (non-corpus) pipeline, as built in
`SynapseMiner.extract_synapse_ids_with_context` of `src/core.py`. -/
structure SimpleFinding where
  synapse_id : List Char
  document : List Char
  position : Nat
  context_before : List Char
  context_after : List Char
  full_context : List Char
deriving Repr, DecidableEq

/-- Loop body of `extract_synapse_ids_with_context`: walk the matches in
scan order carrying the `seen_ids` set (a list) when deduplication is
enabled. -/
def extractLoop (dedup : Bool) (contextSize : Nat) (text document : List Char) :
    List (Nat × List Char) → List (List Char) → List SimpleFinding
  | [], _ => []
  | (pos, m) :: rest, seen =>
    if dedup ∧ m ∈ seen then extractLoop dedup contextSize text document rest seen
    else
      let ctx := extract_context text pos (pos + m.length) contextSize
      { synapse_id := m
        document := document
        position := pos
        context_before := ctx.before
        context_after := ctx.after
        full_context := ctx.full } ::
        extractLoop dedup contextSize text document rest
          (if dedup then m :: seen else seen)

/-- Model of `SynapseMiner.extract_synapse_ids_with_context` from
`src/core.py`: run the unguarded scanner over the text and build one
finding per retained match, deduplicating per document when enabled. -/
def extract_synapse_ids_with_context (dedup : Bool) (contextSize : Nat)
    (text document : List Char) : List SimpleFinding :=
  extractLoop dedup contextSize text document (finditerPlain text 0) []

/-- Parsed XML element, mirroring the part of `xml.etree.ElementTree`'s
`Element` interface that `process_article` uses: tag, attributes, text,
tail text, and child elements. -/
inductive Element where
  | mk (tag : List Char) (attrs : List (List Char × List Char))
      (text : Option (List Char)) (tail : Option (List Char))
      (children : List Element)

/-- Tag of an element. -/
def Element.tag : Element → List Char
  | .mk t _ _ _ _ => t

/-- Attribute list of an element. -/
def Element.attrs : Element → List (List Char × List Char)
  | .mk _ a _ _ _ => a

/-- Text of an element (`element.text`, may be absent). -/
def Element.text : Element → Option (List Char)
  | .mk _ _ tx _ _ => tx

/-- Tail text of an element (`element.tail`, may be absent). -/
def Element.tail : Element → Option (List Char)
  | .mk _ _ _ tl _ => tl

/-- Child elements. -/
def Element.children : Element → List Element
  | .mk _ _ _ _ ch => ch

/-- Model of `element.get(key)`: first attribute with the given name. -/
def Element.getAttr (e : Element) (key : List Char) : Option (List Char) :=
  (e.attrs.find? (fun p => p.1 == key)).map (·.2)

/-- Model of Python `text.endswith(' ')`. -/
def endsSpace (l : List Char) : Bool := l.getLast? == some ' '

mutual

/-- Model of the nested helper `extract_text` in `process_article`
(`src/synapse_miner/core.py`): depth-first concatenation of an element's
text, its children's extracted text and their tail text, inserting a
single space wherever the accumulated text does not already end in one,
and stripping the result. -/
def extract_text : Element → List Char
  | .mk _ _ tx _ children => strip (textAccum (tx.getD []) children)

/-- Fold of `extract_text`'s `for child in element` loop. -/
def textAccum (acc : List Char) : List Element → List Char
  | [] => acc
  | child :: rest =>
    let childText := extract_text child
    let acc1 :=
      if childText ≠ [] ∧ acc ≠ [] ∧ ¬ endsSpace acc then
        acc ++ ' ' :: childText
      else acc ++ childText
    let acc2 :=
      match child.tail with
      | some tl =>
        if tl ≠ [] then
          (if acc1 ≠ [] ∧ ¬ endsSpace acc1 then acc1 ++ ' ' :: tl
           else acc1 ++ tl)
        else acc1
      | none => acc1
    textAccum acc2 rest

end

/-- Model of `findall(".//tag")` on a child list: all descendants with the
given tag, in document order. -/
def descList (tag : List Char) : List Element → List Element
  | [] => []
  | .mk t a tx tl ch :: rest =>
    (if t == tag then [Element.mk t a tx tl ch] else []) ++
      descList tag ch ++ descList tag rest

/-- Model of `re.sub(r'\s+', ' ', text)`: collapse every maximal run of
whitespace to a single space. -/
def collapseWs : List Char → List Char
  | [] => []
  | c :: rest =>
    if isWs c then ' ' :: collapseWs (rest.dropWhile isWs)
    else c :: collapseWs rest
termination_by l => l.length
decreasing_by
  all_goals simp
  all_goals exact Nat.lt_succ_of_le (List.dropWhile_sublist _).length_le

/-- Test for the regex fragment `(?:PMC|pmc)` followed by at least one
digit at the head of the list. -/
def pmcPrefixAt : List Char → Bool
  | 'P' :: 'M' :: 'C' :: c :: _ => c.isDigit
  | 'p' :: 'm' :: 'c' :: c :: _ => c.isDigit
  | _ => false

/-- Model of `re.search(r'(?:PMC|pmc)(\d+)', s)`: digits of the first
match, if any. -/
def searchPMCDigits : List Char → Option (List Char)
  | [] => none
  | c :: rest =>
    if pmcPrefixAt (c :: rest) then
      some (((c :: rest).drop 3).takeWhile Char.isDigit)
    else searchPMCDigits rest

/-- Model of `re.match(r'^syn\d{7,12}$', s)` used as the validation check
inside `process_article`'s finding loop. -/
def validSyn (s : List Char) : Bool :=
  (s.take 3 == [ 's', 'y', 'n' ]) && (s.drop 3).all Char.isDigit &&
    decide (7 ≤ (s.drop 3).length ∧ (s.drop 3).length ≤ 12)

/-- One finding of the corpus pipeline (`process_article`). -/
structure CoreFinding where
  pmcid : List Char
  synid : List Char
  context : List Char
deriving Repr, DecidableEq

/-- Quote normalization applied to the context before output:
`context.replace('"', "'")`. -/
def quoteFix (c : Char) : Char := if c = '"' then '\'' else c

/-- Context window of the corpus pipeline:
`text[max(0, start-25) : min(len(text), end+25)].strip()` where
`start`/`end` delimit a match of length `mlen` at `pos` (Python's
`max(0, ·)` is truncated subtraction on `Nat`). -/
def coreContext (text : List Char) (pos mlen : Nat) : List Char :=
  strip ((text.take (min text.length (pos + mlen + 25))).drop (pos - 25))

/-- Findings loop of `process_article`: for each match of the guarded
scanner take the 25-character window on each side, strip it, lowercase the
identifier, validate, and keep the finding when the context is long enough
and still contains the identifier; double quotes in the context are
replaced by single quotes on output. -/
def buildCoreFindings (pmcid text : List Char) :
    List (Nat × List Char) → List CoreFinding
  | [] => []
  | (pos, m) :: rest =>
    if validSyn (lowerList m) ∧
        10 ≤ (coreContext text pos m.length).length ∧
        containsSub (lowerList m) (coreContext text pos m.length) then
      { pmcid := pmcid, synid := lowerList m,
        context := (coreContext text pos m.length).map quoteFix } ::
        buildCoreFindings pmcid text rest
    else buildCoreFindings pmcid text rest

/-- Literal `PMC`. -/
def pmcLit : List Char := [ 'P', 'M', 'C' ]

/-- PMC-id extraction block of `process_article`: scan `article-id`
descendants for a `pub-id-type` of `pmc` or `pmcid` and take that
element's text; if absent or falsy, fall back to the regex scan of the
raw fragment (prefixing `PMC` to the digits); finally force the `PMC`
prefix.  Returns `none` when both sources fail (the code then returns
`(None, [])`). -/
def pmcFromXmlOf (root : Element) : Option (List Char) :=
  match (descList "article-id".toList root.children).find?
      (fun e => e.getAttr "pub-id-type".toList == some "pmc".toList ||
        e.getAttr "pub-id-type".toList == some "pmcid".toList) with
  | some e =>
    match e.text with
    | some t => if t.isEmpty then none else some t
    | none => none
  | none => none

/-- The raw PMC id before prefix normalization: the XML value when truthy,
else `PMC` plus the digits of the first regex match over the fragment. -/
def pmcRawOf (root : Element) (articleXml : List Char) : Option (List Char) :=
  match pmcFromXmlOf root with
  | some t => some t
  | none => (searchPMCDigits articleXml).map (fun ds => pmcLit ++ ds)

def extractPmcId (root : Element) (articleXml : List Char) :
    Option (List Char) :=
  match pmcRawOf root articleXml with
  | none => none
  | some praw =>
    some (if pmcLit.isPrefixOf praw then praw else pmcLit ++ praw)

/-- Text-assembly block of `process_article`: extract the text of the
first `article-title`, `abstract`, `body` and `back` descendants (those
that exist), join the parts with single spaces, and collapse whitespace
runs. -/
def articleText (root : Element) : List Char :=
  collapseWs (List.intercalate [ ' ' ]
    (((descList "article-title".toList root.children).head?.map
        extract_text).toList ++
     ((descList "abstract".toList root.children).head?.map
        extract_text).toList ++
     ((descList "body".toList root.children).head?.map
        extract_text).toList ++
     ((descList "back".toList root.children).head?.map
        extract_text).toList))

/-- Model of `process_article(article_xml, context_size)` from
`src/synapse_miner/core.py`.  XML parsing is external
(`xml.etree.ElementTree.fromstring`), so it is passed as a function
`parseXML`; `none` models a raised `ParseError`, which the code turns into
`(None, [])`.  The `context_size` argument is accepted but, as in the
source, unused: the finding loop uses a fixed 25-character window. -/
def process_article (parseXML : List Char → Option Element)
    (articleXml : List Char) (contextSize : Nat) :
    Option (List Char) × List CoreFinding :=
  match parseXML articleXml with
  | none => (none, [])
  | some root =>
    match extractPmcId root articleXml with
    | none => (none, [])
    | some pmcId =>
      (some pmcId,
        buildCoreFindings pmcId (articleText root)
          (finditerGuard false (articleText root) 0))

/-- Literal opening marker `<article ` of the splitter. -/
def articleStart : List Char := "<article ".toList

/-- Literal closing marker `</article>` of the splitter. -/
def articleEnd : List Char := "</article>".toList

/-- Inner `while` loop of `SynapseMiner._iter_articles`
(`src/synapse_miner/core.py`): while the buffer contains both markers,
slice out `buffer[start:end]` where `start` is the first `<article ` and
`end` is 10 past the first `</article>` at or after `start` (Python's
`find` returns -1 when that search fails, making `end = 9`), emit the
slice, and continue on `buffer[end:]`.  Returns the emitted fragments and
the final buffer. -/
def consumeLoop (buf : List Char) : List (List Char) × List Char :=
  if h : containsSub articleStart buf = true ∧ containsSub articleEnd buf = true then
    let startN := (findSub articleStart buf).getD 0
    match findSub articleEnd (buf.drop startN) with
    | some j =>
      let p := consumeLoop (buf.drop (startN + j + 10))
      ((buf.take (startN + j + 10)).drop startN :: p.1, p.2)
    | none =>
      let p := consumeLoop (buf.drop 9)
      ((buf.take 9).drop startN :: p.1, p.2)
  else ([], buf)
termination_by buf.length
decreasing_by
  all_goals
    have hlen : 10 ≤ buf.length := by
      have := containsSub_length (by simp [articleEnd]) h.2
      simpa [articleEnd] using this
    simp [List.length_drop]
    omega

/-- Chunked read loop of `_iter_articles`: each read chunk is appended to
the buffer and the inner loop is run; an empty read means end of file, at
which point the inner loop runs once more and the loop stops, silently
discarding whatever is left in the buffer. -/
def iterChunks : List (List Char) → List Char → List (List Char)
  | [], buf => (consumeLoop buf).1
  | c :: cs, buf =>
    if c.isEmpty then (consumeLoop buf).1
    else
      let p := consumeLoop (buf ++ c)
      p.1 ++ iterChunks cs p.2

/-- Model of `SynapseMiner._iter_articles`, the streaming article
splitter, taking the successive non-empty chunks returned by `f.read`. -/
def iter_articles (chunks : List (List Char)) : List (List Char) :=
  iterChunks chunks []

/-- One row of the combined CSV produced by `combine_results`
(`src/synapse_miner/utils/data_utils.py`): a finding row plus the
`source_file` provenance column. -/
structure CombinedRow where
  pmcid : List Char
  synid : List Char
  context : List Char
  source_file : List Char
deriving Repr, DecidableEq

/-- Key on which `drop_duplicates` operates: every column except
`source_file`. -/
def rowKey (r : CombinedRow) : List Char × List Char × List Char :=
  (r.pmcid, r.synid, r.context)

/-- Source XML name extracted from a batch file name,
`'.'.join(file.name.split('.')[2:-1])`. -/
def sourceNameOf (filename : List Char) : List Char :=
  List.intercalate [ '.' ] (((filename.splitOn '.').drop 2).dropLast)

/-- Concatenation step of `combine_results`: read every batch file and add
the `source_file` column derived from its name. -/
def annotateRows (files : List (List Char × List CoreFinding)) :
    List CombinedRow :=
  files.flatMap (fun fr =>
    fr.2.map (fun r => ⟨r.pmcid, r.synid, r.context, sourceNameOf fr.1⟩))

/-- Model of pandas `drop_duplicates` with `keep='first'` on the row key:
keep a row iff its key has not been seen earlier. -/
def dropDupKeep : List CombinedRow →
    List (List Char × List Char × List Char) → List CombinedRow
  | [], _ => []
  | r :: rs, seen =>
    if rowKey r ∈ seen then dropDupKeep rs seen
    else r :: dropDupKeep rs (rowKey r :: seen)

/-- Model of `combine_results`: concatenate all batch tables, each
annotated with its source file, then drop rows whose key (all columns
except `source_file`) already appeared. -/
def combine_results (files : List (List Char × List CoreFinding)) :
    List CombinedRow :=
  dropDupKeep (annotateRows files) []

/-!
Fuel-based evaluators.  The scanners and the splitter above are defined by
well-founded recursion, which the kernel cannot evaluate; the `...F`
functions below are structurally recursive twins taking an explicit fuel,
proved equal to the originals when the fuel is large enough.  They exist
only so that concrete instances can be checked by `decide`.
-/

/-- Fuel-based twin of `finditerPlain`. -/
def finditerPlainF : Nat → List Char → Nat → List (Nat × List Char)
  | 0, _, _ => []
  | _, [], _ => []
  | fuel + 1, c :: rest, pos =>
    if synCIB (c :: rest) ∧ 7 ≤ digitRun ((c :: rest).drop 3) then
      (pos, (c :: rest).take (3 + min (digitRun ((c :: rest).drop 3)) 12)) ::
        finditerPlainF fuel
          ((c :: rest).drop (3 + min (digitRun ((c :: rest).drop 3)) 12))
          (pos + (3 + min (digitRun ((c :: rest).drop 3)) 12))
    else
      finditerPlainF fuel rest (pos + 1)

theorem finditerPlainF_eq :
    ∀ (fuel : Nat) (cs : List Char) (pos : Nat), cs.length ≤ fuel →
      finditerPlainF fuel cs pos = finditerPlain cs pos := by
  intro fuel
  induction fuel with
  | zero =>
    intro cs pos h
    have : cs = [] := by
      rcases cs with _ | ⟨c, rest⟩
      · rfl
      · simp at h
    subst this
    rw [finditerPlain]
    rfl
  | succ fuel ih =>
    intro cs pos h
    rcases cs with _ | ⟨c, rest⟩
    · rw [finditerPlain]
      rfl
    · rw [finditerPlain, finditerPlainF]
      by_cases hc : synCIB (c :: rest) = true ∧
          7 ≤ digitRun ((c :: rest).drop 3)
      · rw [if_pos hc, if_pos hc]
        congr 1
        apply ih
        simp only [List.length_drop, List.length_cons]
        simp only [List.length_cons] at h
        omega
      · rw [if_neg hc, if_neg hc]
        apply ih
        simp only [List.length_cons] at h
        omega

/-- Fuel-based twin of `finditerGuard`. -/
def finditerGuardF : Nat → Bool → List Char → Nat → List (Nat × List Char)
  | 0, _, _, _ => []
  | _, _, [], _ => []
  | fuel + 1, prevDigit, c :: rest, pos =>
    if ¬ prevDigit ∧ synCIB (c :: rest) ∧
        7 ≤ digitRun ((c :: rest).drop 3) ∧
        digitRun ((c :: rest).drop 3) ≤ 12 then
      (pos, (c :: rest).take (3 + digitRun ((c :: rest).drop 3))) ::
        finditerGuardF fuel true
          ((c :: rest).drop (3 + digitRun ((c :: rest).drop 3)))
          (pos + (3 + digitRun ((c :: rest).drop 3)))
    else
      finditerGuardF fuel c.isDigit rest (pos + 1)

theorem finditerGuardF_eq :
    ∀ (fuel : Nat) (prev : Bool) (cs : List Char) (pos : Nat),
      cs.length ≤ fuel →
      finditerGuardF fuel prev cs pos = finditerGuard prev cs pos := by
  intro fuel
  induction fuel with
  | zero =>
    intro prev cs pos h
    have : cs = [] := by
      rcases cs with _ | ⟨c, rest⟩
      · rfl
      · simp at h
    subst this
    rw [finditerGuard]
    rfl
  | succ fuel ih =>
    intro prev cs pos h
    rcases cs with _ | ⟨c, rest⟩
    · rw [finditerGuard]
      rfl
    · rw [finditerGuard, finditerGuardF]
      by_cases hc : ¬ prev = true ∧ synCIB (c :: rest) = true ∧
          7 ≤ digitRun ((c :: rest).drop 3) ∧
          digitRun ((c :: rest).drop 3) ≤ 12
      · rw [if_pos hc, if_pos hc]
        congr 1
        apply ih
        simp only [List.length_drop, List.length_cons]
        simp only [List.length_cons] at h
        omega
      · rw [if_neg hc, if_neg hc]
        apply ih
        simp only [List.length_cons] at h
        omega

/-- Fuel-based twin of `collapseWs`. -/
def collapseWsF : Nat → List Char → List Char
  | 0, _ => []
  | _, [] => []
  | fuel + 1, c :: rest =>
    if isWs c then ' ' :: collapseWsF fuel (rest.dropWhile isWs)
    else c :: collapseWsF fuel rest

theorem collapseWsF_eq :
    ∀ (fuel : Nat) (l : List Char), l.length ≤ fuel →
      collapseWsF fuel l = collapseWs l := by
  intro fuel
  induction fuel with
  | zero =>
    intro l h
    have : l = [] := by
      rcases l with _ | ⟨c, rest⟩
      · rfl
      · simp at h
    subst this
    rw [collapseWs]
    rfl
  | succ fuel ih =>
    intro l h
    rcases l with _ | ⟨c, rest⟩
    · rw [collapseWs]
      rfl
    · rw [collapseWs, collapseWsF]
      by_cases hc : isWs c = true
      · rw [if_pos hc, if_pos hc]
        congr 1
        apply ih
        have := (List.dropWhile_sublist (l := rest) isWs).length_le
        simp only [List.length_cons] at h
        omega
      · rw [if_neg hc, if_neg hc]
        congr 1
        apply ih
        simp only [List.length_cons] at h
        omega

mutual

/-- Number of elements in a subtree (an executable fuel measure). -/
def elemSize : Element → Nat
  | .mk _ _ _ _ ch => 1 + elemsSize ch

/-- Number of elements in a forest. -/
def elemsSize : List Element → Nat
  | [] => 0
  | e :: rest => elemSize e + elemsSize rest

end

/-- Fuel-based twin of `descList`. -/
def descListF : Nat → List Char → List Element → List Element
  | 0, _, _ => []
  | _, _, [] => []
  | fuel + 1, tag, .mk t a tx tl ch :: rest =>
    (if t == tag then [Element.mk t a tx tl ch] else []) ++
      descListF fuel tag ch ++ descListF fuel tag rest

theorem descListF_eq :
    ∀ (fuel : Nat) (tag : List Char) (l : List Element), elemsSize l ≤ fuel →
      descListF fuel tag l = descList tag l := by
  intro fuel
  induction fuel with
  | zero =>
    intro tag l h
    rcases l with _ | ⟨e, rest⟩
    · rw [descList]
      rfl
    · exfalso
      rcases e with ⟨t, a, tx, tl, ch⟩
      rw [elemsSize, elemSize] at h
      omega
  | succ fuel ih =>
    intro tag l h
    rcases l with _ | ⟨e, rest⟩
    · rw [descList]
      rfl
    · rcases e with ⟨t, a, tx, tl, ch⟩
      rw [descList, descListF]
      rw [elemsSize, elemSize] at h
      rw [ih tag ch (by omega), ih tag rest (by omega)]

/-- Fuel-based twin of `pmcFromXmlOf`. -/
def pmcFromXmlOfF (root : Element) : Option (List Char) :=
  match (descListF (elemsSize root.children) "article-id".toList
      root.children).find?
      (fun e => e.getAttr "pub-id-type".toList == some "pmc".toList ||
        e.getAttr "pub-id-type".toList == some "pmcid".toList) with
  | some e =>
    match e.text with
    | some t => if t.isEmpty then none else some t
    | none => none
  | none => none

theorem pmcFromXmlOfF_eq (root : Element) :
    pmcFromXmlOfF root = pmcFromXmlOf root := by
  unfold pmcFromXmlOfF pmcFromXmlOf
  rw [descListF_eq _ _ _ (le_refl _)]

/-- Fuel-based twin of `pmcRawOf`. -/
def pmcRawOfF (root : Element) (articleXml : List Char) :
    Option (List Char) :=
  match pmcFromXmlOfF root with
  | some t => some t
  | none => (searchPMCDigits articleXml).map (fun ds => pmcLit ++ ds)

theorem pmcRawOfF_eq (root : Element) (xml : List Char) :
    pmcRawOfF root xml = pmcRawOf root xml := by
  unfold pmcRawOfF pmcRawOf
  rw [pmcFromXmlOfF_eq]

/-- Fuel-based twin of `extractPmcId`. -/
def extractPmcIdF (root : Element) (articleXml : List Char) :
    Option (List Char) :=
  match pmcRawOfF root articleXml with
  | none => none
  | some praw =>
    some (if pmcLit.isPrefixOf praw then praw else pmcLit ++ praw)

theorem extractPmcIdF_eq (root : Element) (xml : List Char) :
    extractPmcIdF root xml = extractPmcId root xml := by
  unfold extractPmcIdF extractPmcId
  rw [pmcRawOfF_eq]

/-- Fuel-based twin of the text-part assembly of `articleText`. -/
def articlePartsF (root : Element) : List (List Char) :=
  ((descListF (elemsSize root.children) "article-title".toList
      root.children).head?.map extract_text).toList ++
  ((descListF (elemsSize root.children) "abstract".toList
      root.children).head?.map extract_text).toList ++
  ((descListF (elemsSize root.children) "body".toList
      root.children).head?.map extract_text).toList ++
  ((descListF (elemsSize root.children) "back".toList
      root.children).head?.map extract_text).toList

/-- Fuel-based twin of `articleText`. -/
def articleTextF (root : Element) : List Char :=
  collapseWsF (List.intercalate [ ' ' ] (articlePartsF root)).length
    (List.intercalate [ ' ' ] (articlePartsF root))

theorem articleTextF_eq (root : Element) :
    articleTextF root = articleText root := by
  unfold articleTextF articlePartsF articleText
  rw [collapseWsF_eq _ _ (le_refl _)]
  rw [descListF_eq _ "article-title".toList _ (le_refl _),
    descListF_eq _ "abstract".toList _ (le_refl _),
    descListF_eq _ "body".toList _ (le_refl _),
    descListF_eq _ "back".toList _ (le_refl _)]

/-- Fuel-based twin of `process_article`. -/
def process_articleF (parseXML : List Char → Option Element)
    (articleXml : List Char) (contextSize : Nat) :
    Option (List Char) × List CoreFinding :=
  match parseXML articleXml with
  | none => (none, [])
  | some root =>
    match extractPmcIdF root articleXml with
    | none => (none, [])
    | some pmcId =>
      (some pmcId,
        buildCoreFindings pmcId (articleTextF root)
          (finditerGuardF (articleTextF root).length false (articleTextF root)
            0))

theorem process_articleF_eq (parseXML : List Char → Option Element)
    (xml : List Char) (csz : Nat) :
    process_articleF parseXML xml csz = process_article parseXML xml csz := by
  unfold process_articleF process_article
  cases hp : parseXML xml with
  | none => rfl
  | some root =>
    dsimp only
    rw [extractPmcIdF_eq]
    cases he : extractPmcId root xml with
    | none => rfl
    | some pid =>
      dsimp only
      rw [articleTextF_eq, finditerGuardF_eq _ _ _ _ (le_refl _)]

theorem lstrip_cons_ws {c : Char} (h : isWs c = true) (cs : List Char) :
    lstrip (c :: cs) = lstrip cs := by
  simp [lstrip, List.dropWhile_cons, h]

theorem lstrip_cons_not {c : Char} (h : isWs c = false) (cs : List Char) :
    lstrip (c :: cs) = c :: cs := by
  simp [lstrip, List.dropWhile_cons, h]

theorem lstrip_head_not_ws :
    ∀ {l c cs}, lstrip l = c :: cs → isWs c = false := by
  intro l
  induction l with
  | nil => intro c cs h; simp [lstrip] at h
  | cons a l ih =>
    intro c cs h
    by_cases ha : isWs a = true
    · rw [lstrip_cons_ws ha] at h
      exact ih h
    · have ha' : isWs a = false := Bool.eq_false_iff.2 ha
      rw [lstrip_cons_not ha'] at h
      injection h with h1 _
      subst h1
      exact ha'

theorem lstrip_append_ne {l : List Char} (h : lstrip l ≠ []) (r : List Char) :
    lstrip (l ++ r) = lstrip l ++ r := by
  induction l with
  | nil => simp [lstrip] at h
  | cons a l ih =>
    by_cases ha : isWs a = true
    · rw [lstrip_cons_ws ha] at h ⊢
      rw [List.cons_append, lstrip_cons_ws ha]
      exact ih h
    · have ha' : isWs a = false := Bool.eq_false_iff.2 ha
      rw [lstrip_cons_not ha']
      rw [List.cons_append, lstrip_cons_not ha']

theorem lstrip_append_eq {l : List Char} (h : lstrip l = []) (r : List Char) :
    lstrip (l ++ r) = lstrip r := by
  induction l with
  | nil => simp
  | cons a l ih =>
    by_cases ha : isWs a = true
    · rw [lstrip_cons_ws ha] at h
      rw [List.cons_append, lstrip_cons_ws ha]
      exact ih h
    · have ha' : isWs a = false := Bool.eq_false_iff.2 ha
      rw [lstrip_cons_not ha'] at h
      simp at h

theorem lstrip_all_not {l : List Char} (h : ∀ c ∈ l, isWs c = false) :
    lstrip l = l := by
  induction l with
  | nil => rfl
  | cons a l _ =>
    exact lstrip_cons_not (h a (by simp)) l

theorem lstrip_idem (l : List Char) : lstrip (lstrip l) = lstrip l := by
  rcases hl : lstrip l with _ | ⟨c, cs⟩
  · rfl
  · exact lstrip_cons_not (lstrip_head_not_ws hl) cs

theorem rstrip_append_ne {r : List Char} (h : rstrip r ≠ []) (l : List Char) :
    rstrip (l ++ r) = l ++ rstrip r := by
  unfold rstrip at h ⊢
  have hne : lstrip r.reverse ≠ [] := by
    intro h0
    rw [h0] at h
    simp at h
  rw [List.reverse_append, lstrip_append_ne hne, List.reverse_append,
    List.reverse_reverse]

theorem rstrip_append_eq {r : List Char} (h : rstrip r = []) (l : List Char) :
    rstrip (l ++ r) = rstrip l := by
  unfold rstrip at h ⊢
  have hnil : lstrip r.reverse = [] := by
    rcases hl : lstrip r.reverse with _ | ⟨c, cs⟩
    · rfl
    · rw [hl] at h; simp at h
  rw [List.reverse_append, lstrip_append_eq hnil]

theorem rstrip_all_not {l : List Char} (h : ∀ c ∈ l, isWs c = false) :
    rstrip l = l := by
  unfold rstrip
  rw [lstrip_all_not (by intro c hc; exact h c (List.mem_reverse.1 hc))]
  exact List.reverse_reverse l

theorem rstrip_idem (l : List Char) : rstrip (rstrip l) = rstrip l := by
  unfold rstrip
  rw [List.reverse_reverse, lstrip_idem]

theorem rstrip_concat_ws {c : Char} (h : isWs c = true) (l : List Char) :
    rstrip (l ++ [ c ]) = rstrip l := by
  unfold rstrip
  rw [List.reverse_append, List.reverse_singleton, List.singleton_append,
    lstrip_cons_ws h]

theorem rstrip_concat_not {c : Char} (h : isWs c = false) (l : List Char) :
    rstrip (l ++ [ c ]) = l ++ [ c ] := by
  unfold rstrip
  rw [List.reverse_append, List.reverse_singleton, List.singleton_append,
    lstrip_cons_not h, List.reverse_cons, List.reverse_reverse]

theorem rstrip_getLast_not_ws {l : List Char} {c : Char}
    (h : (rstrip l).getLast? = some c) : isWs c = false := by
  unfold rstrip at h
  rw [List.getLast?_reverse] at h
  rcases hl : lstrip l.reverse with _ | ⟨d, ds⟩
  · rw [hl] at h; simp at h
  · rw [hl] at h
    simp only [List.head?_cons, Option.some_inj] at h
    subst h
    exact lstrip_head_not_ws hl

theorem lstrip_length_le (l : List Char) : (lstrip l).length ≤ l.length :=
  (List.dropWhile_sublist _).length_le

theorem rstrip_length_le (l : List Char) : (rstrip l).length ≤ l.length := by
  unfold rstrip
  rw [List.length_reverse]
  calc (lstrip l.reverse).length ≤ l.reverse.length := lstrip_length_le _
  _ = l.length := List.length_reverse l

theorem strip_length_le (l : List Char) : (strip l).length ≤ l.length := by
  unfold strip
  calc (rstrip (lstrip l)).length ≤ (lstrip l).length := rstrip_length_le _
  _ ≤ l.length := lstrip_length_le l

theorem lstrip_rstrip_comm (l : List Char) :
    lstrip (rstrip l) = rstrip (lstrip l) := by
  induction l with
  | nil => rfl
  | cons a l ih =>
    by_cases ha : isWs a = true
    · rw [lstrip_cons_ws ha]
      by_cases hr : rstrip l = []
      · have hnil : rstrip (a :: l) = [] := by
          have h1 := rstrip_append_eq hr [ a ]
          simp only [List.singleton_append] at h1
          rw [h1]
          unfold rstrip lstrip
          simp [List.dropWhile_cons, ha]
        rw [hnil, ← ih, hr]
      · have hcons : rstrip (a :: l) = a :: rstrip l := by
          have h1 := rstrip_append_ne hr [ a ]
          simp only [List.singleton_append] at h1
          exact h1
        rw [hcons, lstrip_cons_ws ha, ih]
    · have ha' : isWs a = false := Bool.eq_false_iff.2 ha
      rw [lstrip_cons_not ha']
      by_cases hr : rstrip l = []
      · have hone : rstrip (a :: l) = [ a ] := by
          have h1 := rstrip_append_eq hr [ a ]
          simp only [List.singleton_append] at h1
          rw [h1]
          unfold rstrip lstrip
          simp [List.dropWhile_cons, ha']
        rw [hone]
        exact lstrip_cons_not ha' []
      · have hcons : rstrip (a :: l) = a :: rstrip l := by
          have h1 := rstrip_append_ne hr [ a ]
          simp only [List.singleton_append] at h1
          exact h1
        rw [hcons, lstrip_cons_not ha']

theorem lstrip_strip (l : List Char) : lstrip (strip l) = strip l := by
  unfold strip
  rw [lstrip_rstrip_comm, lstrip_idem]

theorem rstrip_strip (l : List Char) : rstrip (strip l) = strip l := by
  unfold strip
  rw [rstrip_idem]

theorem rstrip_length_le_of_suffix {l t : List Char} (h : l <:+ t) :
    (rstrip l).length ≤ (rstrip t).length := by
  rcases h with ⟨y, rfl⟩
  by_cases hr : rstrip l = []
  · simp [hr]
  · rw [rstrip_append_ne hr]
    simp

theorem strip_length_le_of_suffix {l t : List Char} (h : l <:+ t) :
    (strip l).length ≤ (strip t).length := by
  rcases h with ⟨y, rfl⟩
  unfold strip
  by_cases hy : lstrip y = []
  · rw [lstrip_append_eq hy]
  · rw [lstrip_append_ne hy]
    have hsuf : lstrip l <:+ lstrip y ++ l :=
      (List.dropWhile_suffix _).trans (List.suffix_append _ _)
    exact rstrip_length_le_of_suffix hsuf

theorem strip_reverse (l : List Char) : strip l.reverse = (strip l).reverse := by
  have h1 : lstrip l.reverse = (rstrip l).reverse := by
    unfold rstrip
    rw [List.reverse_reverse]
  have h2 : ∀ x : List Char, rstrip x.reverse = (lstrip x).reverse := by
    intro x
    unfold rstrip
    rw [List.reverse_reverse]
  calc strip l.reverse = rstrip (lstrip l.reverse) := rfl
  _ = rstrip (rstrip l).reverse := by rw [h1]
  _ = (lstrip (rstrip l)).reverse := h2 _
  _ = (rstrip (lstrip l)).reverse := by rw [lstrip_rstrip_comm]
  _ = (strip l).reverse := rfl

theorem strip_length_le_of_prefix {l t : List Char} (h : l <+: t) :
    (strip l).length ≤ (strip t).length := by
  have hsuf : l.reverse <:+ t.reverse := List.reverse_suffix.2 h
  have := strip_length_le_of_suffix hsuf
  rw [strip_reverse, strip_reverse] at this
  simpa using this

theorem isWs_space : isWs ' ' = true := by decide

/-- Closed form of the full-context string
`(before + " " + target + " " + after).strip()` when `before` and `after`
are already stripped and the target is a nonempty whitespace-free match. -/
theorem strip_glue (b t a : List Char)
    (hbl : lstrip b = b) (hal : lstrip a = a) (har : rstrip a = a)
    (ht : t ≠ []) (htw : ∀ c ∈ t, isWs c = false) :
    strip (b ++ ' ' :: t ++ ' ' :: a) =
      (if b.isEmpty then [] else b ++ [ ' ' ]) ++ t ++
        (if a.isEmpty then [] else ' ' :: a) := by
  have hlt : lstrip t = t := lstrip_all_not htw
  have hrt : rstrip t = t := rstrip_all_not htw
  have htne : rstrip t ≠ [] := by rw [hrt]; exact ht
  have hstep1 : lstrip (b ++ ' ' :: t ++ ' ' :: a) =
      ((if b.isEmpty then [] else b ++ [ ' ' ]) ++ t) ++ ' ' :: a := by
    by_cases hb : b = []
    · subst hb
      simp only [List.nil_append, List.isEmpty_nil, if_true]
      rw [List.cons_append, lstrip_cons_ws isWs_space]
      have hlne : lstrip t ≠ [] := by rw [hlt]; exact ht
      rw [lstrip_append_ne hlne, hlt]
    · have hbe : b.isEmpty = false := by
        simpa [List.isEmpty_iff] using hb
      rw [hbe]
      simp only [Bool.false_eq_true, if_false]
      have hbne : lstrip b ≠ [] := by rw [hbl]; exact hb
      rw [List.append_assoc, lstrip_append_ne hbne, hbl]
      simp [List.append_assoc]
  unfold strip
  rw [hstep1]
  by_cases ha : a = []
  · subst ha
    simp only [List.isEmpty_nil, if_true, List.append_nil]
    rw [rstrip_concat_ws isWs_space, rstrip_append_ne htne, hrt]
  · have hae : a.isEmpty = false := by simpa [List.isEmpty_iff] using ha
    rw [hae]
    simp only [Bool.false_eq_true, if_false]
    have hane : rstrip a ≠ [] := by rw [har]; exact ha
    have hsh : ((if b.isEmpty then ([] : List Char) else b ++ [ ' ' ]) ++ t) ++
        ' ' :: a =
        (((if b.isEmpty then ([] : List Char) else b ++ [ ' ' ]) ++ t) ++
          [ ' ' ]) ++ a := by
      simp [List.append_assoc]
    rw [hsh, rstrip_append_ne hane, har]

/-- Length form of `strip_glue`. -/
theorem strip_glue_length (b t a : List Char)
    (hbl : lstrip b = b) (hal : lstrip a = a) (har : rstrip a = a)
    (ht : t ≠ []) (htw : ∀ c ∈ t, isWs c = false) :
    (strip (b ++ ' ' :: t ++ ' ' :: a)).length =
      t.length + (if b.isEmpty then 0 else b.length + 1) +
        (if a.isEmpty then 0 else a.length + 1) := by
  rw [strip_glue b t a hbl hal har ht htw]
  by_cases hb : b = []
  · by_cases ha : a = []
    · subst hb; subst ha; simp
    · have hae : a.isEmpty = false := by simpa [List.isEmpty_iff] using ha
      subst hb; simp [hae]
  · have hbe : b.isEmpty = false := by simpa [List.isEmpty_iff] using hb
    by_cases ha : a = []
    · subst ha; simp [hbe]; omega
    · have hae : a.isEmpty = false := by simpa [List.isEmpty_iff] using ha
      simp [hbe, hae]; omega

theorem drop_suffix_drop {l : List Char} {k k' : Nat} (h : k' ≤ k) :
    l.drop k <:+ l.drop k' := by
  have : (l.drop k').drop (k - k') = l.drop k := by
    rw [List.drop_drop]
    congr 1
    omega
  rw [← this]
  exact List.drop_suffix _ _

theorem take_prefix_take {l : List Char} {m m' : Nat} (h : m ≤ m') :
    l.take m <+: l.take m' := by
  have : (l.take m').take m = l.take m := by
    rw [List.take_take]
    congr 1
    omega
  rw [← this]
  exact List.take_prefix _ _

theorem drop_prefix_mono {p q : List Char} (e : Nat) (h : p <+: q) :
    p.drop e <+: q.drop e := by
  rcases h with ⟨r, rfl⟩
  rcases Nat.le_total e p.length with he | he
  · rw [List.drop_append_of_le_length he]
    exact List.prefix_append _ _
  · rw [List.drop_eq_nil_of_le he]
    exact List.nil_prefix

theorem glue_if_mono {x y : List Char} (h : x.length ≤ y.length) :
    (if x.isEmpty then 0 else x.length + 1) ≤
      (if y.isEmpty then 0 else y.length + 1) := by
  by_cases hx : x.isEmpty = true
  · simp [hx]
  · have hx' : x ≠ [] := by simpa [List.isEmpty_iff] using hx
    have hxlen : 1 ≤ x.length := by
      rcases x with _ | ⟨c, cs⟩
      · exact absurd rfl hx'
      · simp
    have hy : y.isEmpty = false := by
      have hy1 : 1 ≤ y.length := le_trans hxlen h
      rcases y with _ | ⟨c, cs⟩
      · simp at hy1
      · simp
    have hx'' : x.isEmpty = false := Bool.eq_false_iff.2 hx
    simp [hx'', hy]
    omega

/-- Length of the full context produced by `extract_context`, for a
nonempty whitespace-free target inside the text. -/
theorem extract_context_full_length (text : List Char) (s e csz : Nat)
    (hse : s < e) (hel : e ≤ text.length)
    (htw : ∀ c ∈ (text.take e).drop s, isWs c = false) :
    (extract_context text s e csz).full.length =
      ((text.take e).drop s).length +
        (if (strip ((text.take s).drop (s - csz))).isEmpty then 0
         else (strip ((text.take s).drop (s - csz))).length + 1) +
        (if (strip ((text.take (min text.length (e + csz))).drop e)).isEmpty
         then 0
         else (strip ((text.take (min text.length (e + csz))).drop e)).length
           + 1) := by
  have hne : text ≠ [] := by
    intro h0
    rw [h0] at hel
    simp at hel
    omega
  have hemp : text.isEmpty = false := by simpa [List.isEmpty_iff] using hne
  have htne : (text.take e).drop s ≠ [] := by
    have : ((text.take e).drop s).length = min e text.length - s := by
      simp [List.length_drop, List.length_take]
    intro h0
    rw [h0] at this
    simp at this
    omega
  unfold extract_context
  rw [hemp]
  simp only [Bool.false_eq_true, if_false]
  exact strip_glue_length _ _ _ (lstrip_strip _) (lstrip_strip _)
    (rstrip_strip _) htne htw

/-- C8 core inequality: a larger context size gives a full context at
least as long, for the same text and the same match slice. -/
theorem extract_context_len_mono (text : List Char) (s e csz1 csz2 : Nat)
    (hse : s < e) (hel : e ≤ text.length)
    (htw : ∀ c ∈ (text.take e).drop s, isWs c = false)
    (hcs : csz1 ≤ csz2) :
    (extract_context text s e csz1).full.length ≤
      (extract_context text s e csz2).full.length := by
  rw [extract_context_full_length text s e csz1 hse hel htw,
    extract_context_full_length text s e csz2 hse hel htw]
  have hb : (strip ((text.take s).drop (s - csz1))).length ≤
      (strip ((text.take s).drop (s - csz2))).length :=
    strip_length_le_of_suffix (drop_suffix_drop (by omega))
  have ha : (strip ((text.take (min text.length (e + csz1))).drop e)).length ≤
      (strip ((text.take (min text.length (e + csz2))).drop e)).length :=
    strip_length_le_of_prefix
      (drop_prefix_mono e (take_prefix_take (by omega)))
  have h1 := glue_if_mono hb
  have h2 := glue_if_mono ha
  omega

theorem getD_drop_char (l : List Char) (n j : Nat) (d : Char) :
    (l.drop n).getD j d = l.getD (n + j) d := by
  simp [List.getD, List.getElem?_drop]

theorem digitRun_getD {l : List Char} {j : Nat} (h : j < digitRun l) :
    (l.getD j ' ').isDigit = true := by
  induction l generalizing j with
  | nil => simp [digitRun] at h
  | cons c cs ih =>
    unfold digitRun at h
    by_cases hc : c.isDigit = true
    · rw [if_pos hc] at h
      rcases j with _ | j
      · simpa using hc
      · have := ih (j := j) (by omega)
        simpa using this
    · rw [if_neg hc] at h
      omega

theorem digit_not_sS {c : Char} (h : c.isDigit = true) :
    (c == 's' || c == 'S') = false := by
  cases hb : (c == 's' || c == 'S') with
  | false => rfl
  | true =>
    exfalso
    rcases Bool.or_eq_true_iff.1 hb with h1 | h1
    · rw [beq_iff_eq] at h1; subst h1; exact absurd h (by decide)
    · rw [beq_iff_eq] at h1; subst h1; exact absurd h (by decide)

theorem yChar_not_sS {c : Char} (h : c = 'y' ∨ c = 'Y') :
    (c == 's' || c == 'S') = false := by
  rcases h with h1 | h1
  · subst h1; decide
  · subst h1; decide

theorem nChar_not_sS {c : Char} (h : c = 'n' ∨ c = 'N') :
    (c == 's' || c == 'S') = false := by
  rcases h with h1 | h1
  · subst h1; decide
  · subst h1; decide

theorem synCIB_head_digit {l : List Char}
    (h : (l.getD 0 ' ').isDigit = true) : synCIB l = false := by
  rcases l with _ | ⟨a, _ | ⟨b, _ | ⟨c, tl⟩⟩⟩
  · rfl
  · rfl
  · rfl
  · have ha : a.isDigit = true := by simpa using h
    simp [synCIB, digit_not_sS ha]

theorem synCIB_parts {a b c : Char} {tl : List Char}
    (h : synCIB (a :: b :: c :: tl) = true) :
    (a = 's' ∨ a = 'S') ∧ (b = 'y' ∨ b = 'Y') ∧ (c = 'n' ∨ c = 'N') := by
  unfold synCIB at h
  simp [Bool.and_eq_true] at h
  tauto

theorem synCIB_drop1 {l : List Char} (h : synCIB l = true) :
    synCIB (l.drop 1) = false := by
  rcases l with _ | ⟨a, _ | ⟨b, _ | ⟨c, tl⟩⟩⟩
  · simp [synCIB] at h
  · simp [synCIB] at h
  · simp [synCIB] at h
  · rcases synCIB_parts h with ⟨-, hb, -⟩
    rcases tl with _ | ⟨d, tl⟩
    · rfl
    · simp only [List.drop_succ_cons, List.drop_zero]
      simp [synCIB, yChar_not_sS hb]

theorem synCIB_drop2 {l : List Char} (h : synCIB l = true) :
    synCIB (l.drop 2) = false := by
  rcases l with _ | ⟨a, _ | ⟨b, _ | ⟨c, tl⟩⟩⟩
  · simp [synCIB] at h
  · simp [synCIB] at h
  · simp [synCIB] at h
  · rcases synCIB_parts h with ⟨-, -, hc⟩
    rcases tl with _ | ⟨d, _ | ⟨e, tl⟩⟩
    · rfl
    · rfl
    · simp only [List.drop_succ_cons, List.drop_zero]
      simp [synCIB, nChar_not_sS hc]

/-- Declarative condition for a guarded-pattern match of `cs` at relative
index `i` with match text `m`; `prev` records whether the character just
before `cs` is a digit.  It requires: the previous character is not a
digit, `syn` (case-insensitively) at `i`, a maximal digit run of length 7
to 12 right after, and `m` to be exactly that slice. -/
def guardSpecAt (prev : Bool) (cs : List Char) (i : Nat) (m : List Char) :
    Prop :=
  (if i = 0 then prev = false else (cs.getD (i - 1) ' ').isDigit = false) ∧
  synCIB (cs.drop i) = true ∧
  7 ≤ digitRun (cs.drop (i + 3)) ∧ digitRun (cs.drop (i + 3)) ≤ 12 ∧
  m = (cs.drop i).take (3 + digitRun (cs.drop (i + 3)))

instance (prev : Bool) (cs : List Char) (i : Nat) (m : List Char) :
    Decidable (guardSpecAt prev cs i m) := by
  unfold guardSpecAt; infer_instance

theorem guardSpecAt_shift_one {prev : Bool} {c : Char} {rest m : List Char}
    {i : Nat} (hi : 1 ≤ i) :
    guardSpecAt prev (c :: rest) i m ↔ guardSpecAt c.isDigit rest (i - 1) m := by
  rcases i with _ | i
  · omega
  · unfold guardSpecAt
    rcases i with _ | i
    · simp
    · simp [List.getD_cons_succ, Nat.succ_sub_one]

theorem guardSpecAt_zero {prev : Bool} {cs m : List Char} :
    guardSpecAt prev cs 0 m ↔
      prev = false ∧ synCIB cs = true ∧ 7 ≤ digitRun (cs.drop 3) ∧
        digitRun (cs.drop 3) ≤ 12 ∧ m = cs.take (3 + digitRun (cs.drop 3)) := by
  unfold guardSpecAt
  simp

theorem guardSpecAt_shift_big {prev : Bool} {cs m : List Char} {i : Nat}
    (hsyn : synCIB cs = true) (h7 : 7 ≤ digitRun (cs.drop 3))
    (hL : 3 + digitRun (cs.drop 3) ≤ i) :
    guardSpecAt prev cs i m ↔
      guardSpecAt true (cs.drop (3 + digitRun (cs.drop 3)))
        (i - (3 + digitRun (cs.drop 3))) m := by
  set d := digitRun (cs.drop 3) with hd
  set L := 3 + d with hLdef
  rcases Nat.eq_or_lt_of_le hL with hEq | hlt
  · have hiL : i = L := hEq.symm
    subst hiL
    have hdig : (cs.getD (L - 1) ' ').isDigit = true := by
      have h1 : (cs.getD (3 + (d - 1)) ' ').isDigit = true := by
        rw [← getD_drop_char cs 3 (d - 1) ' ']
        exact digitRun_getD (by omega)
      have h2 : 3 + (d - 1) = L - 1 := by omega
      rwa [h2] at h1
    constructor
    · rintro ⟨hb, -⟩
      rw [if_neg (by omega)] at hb
      rw [hdig] at hb
      simp at hb
    · rintro ⟨hb, -⟩
      rw [if_pos (by omega)] at hb
      simp at hb
  · have hipos : i ≠ 0 := by omega
    have hiL : i - L ≠ 0 := by omega
    unfold guardSpecAt
    rw [if_neg hipos, if_neg hiL]
    have e1 : (cs.drop L).getD (i - L - 1) ' ' = cs.getD (i - 1) ' ' := by
      rw [getD_drop_char]
      congr 1
      omega
    have e2 : (cs.drop L).drop (i - L) = cs.drop i := by
      rw [List.drop_drop]
      congr 1
      omega
    have e3 : (cs.drop L).drop (i - L + 3) = cs.drop (i + 3) := by
      rw [List.drop_drop]
      congr 1
      omega
    rw [e1, e2, e3]

theorem guardSpecAt_mid {prev : Bool} {cs m : List Char} {i : Nat}
    (hsyn : synCIB cs = true) (hi1 : 1 ≤ i)
    (hiL : i < 3 + digitRun (cs.drop 3)) :
    ¬ guardSpecAt prev cs i m := by
  rintro ⟨-, hsyn', -⟩
  have hfalse : synCIB (cs.drop i) = false := by
    rcases Nat.lt_or_ge i 3 with h3 | h3
    · interval_cases i
      · exact synCIB_drop1 hsyn
      · exact synCIB_drop2 hsyn
    · have hdig : ((cs.drop i).getD 0 ' ').isDigit = true := by
        rw [getD_drop_char]
        have h1 : (cs.getD (3 + (i - 3)) ' ').isDigit = true := by
          rw [← getD_drop_char cs 3 (i - 3) ' ']
          exact digitRun_getD (by omega)
        have h2 : 3 + (i - 3) = i + 0 := by omega
        rwa [h2] at h1
      exact synCIB_head_digit hdig
  rw [hsyn'] at hfalse
  simp at hfalse

theorem finditerGuard_mem_iff (prev : Bool) (cs : List Char) (pos : Nat)
    (p : Nat) (m : List Char) :
    (p, m) ∈ finditerGuard prev cs pos ↔
      ∃ i, p = pos + i ∧ guardSpecAt prev cs i m := by
  induction prev, cs, pos using finditerGuard.induct with
  | case1 prev pos =>
    simp only [finditerGuard, List.not_mem_nil, false_iff]
    rintro ⟨i, -, -, hsyn, -⟩
    simp [synCIB] at hsyn
  | case2 prev c rest pos hfire ih =>
    rw [finditerGuard, if_pos hfire]
    rcases hfire with ⟨hprev, hsyn, h7, h12⟩
    have hprev' : prev = false := by simpa using hprev
    constructor
    · intro hmem
      rcases List.mem_cons.1 hmem with hhd | htl
      · injection hhd with h1 h2
        refine ⟨0, by omega, ?_⟩
        rw [guardSpecAt_zero]
        exact ⟨hprev', hsyn, h7, h12, h2⟩
      · rcases ih.1 htl with ⟨i', hp, hspec⟩
        refine ⟨3 + digitRun ((c :: rest).drop 3) + i', by omega, ?_⟩
        rw [guardSpecAt_shift_big hsyn h7 (by omega)]
        have : 3 + digitRun ((c :: rest).drop 3) + i' -
            (3 + digitRun ((c :: rest).drop 3)) = i' := by omega
        rwa [this]
    · rintro ⟨i, hp, hspec⟩
      rcases Nat.eq_zero_or_pos i with h0 | h0
      · subst h0
        rw [guardSpecAt_zero] at hspec
        exact List.mem_cons.2 (Or.inl (by
          rw [hspec.2.2.2.2]
          simp [hp]))
      · rcases Nat.lt_or_ge i (3 + digitRun ((c :: rest).drop 3)) with hlt | hge
        · exact absurd hspec (guardSpecAt_mid hsyn h0 hlt)
        · refine List.mem_cons.2 (Or.inr (ih.2 ⟨i - (3 + digitRun ((c :: rest).drop 3)), by omega, ?_⟩))
          rw [← guardSpecAt_shift_big hsyn h7 hge]
          exact hspec
  | case3 prev c rest pos hnf ih =>
    rw [finditerGuard, if_neg hnf]
    constructor
    · intro hmem
      rcases ih.1 hmem with ⟨i', hp, hspec⟩
      refine ⟨i' + 1, by omega, ?_⟩
      rw [guardSpecAt_shift_one (by omega)]
      simpa using hspec
    · rintro ⟨i, hp, hspec⟩
      rcases Nat.eq_zero_or_pos i with h0 | h0
      · subst h0
        rw [guardSpecAt_zero] at hspec
        exact absurd ⟨by simp [hspec.1], hspec.2.1, hspec.2.2.1,
          hspec.2.2.2.1⟩ hnf
      · refine ih.2 ⟨i - 1, by omega, ?_⟩
        rw [← guardSpecAt_shift_one h0]
        exact hspec

/-- Lower bound on positions emitted by the guarded scanner. -/
theorem finditerGuard_pos_le (prev : Bool) (cs : List Char) (pos : Nat) :
    ∀ q m', (q, m') ∈ finditerGuard prev cs pos → pos ≤ q := by
  induction prev, cs, pos using finditerGuard.induct with
  | case1 prev pos => simp [finditerGuard]
  | case2 prev c rest pos hfire ih =>
    intro q m' hmem
    rw [finditerGuard, if_pos hfire] at hmem
    rcases List.mem_cons.1 hmem with hhd | htl
    · injection hhd with h1 _
      omega
    · have := ih q m' htl
      omega
  | case3 prev c rest pos hnf ih =>
    intro q m' hmem
    rw [finditerGuard, if_neg hnf] at hmem
    have := ih q m' hmem
    omega

/-- The guarded scanner's matches are in strictly increasing position
order and pairwise non-overlapping. -/
theorem finditerGuard_pairwise (prev : Bool) (cs : List Char) (pos : Nat) :
    (finditerGuard prev cs pos).Pairwise
      (fun x y => x.1 + x.2.length ≤ y.1) := by
  induction prev, cs, pos using finditerGuard.induct with
  | case1 prev pos => simp [finditerGuard]
  | case2 prev c rest pos hfire ih =>
    rw [finditerGuard, if_pos hfire]
    refine List.Pairwise.cons ?_ ih
    intro y hy
    have hq := finditerGuard_pos_le _ _ _ y.1 y.2 (by simpa using hy)
    have hlen : ((c :: rest).take (3 + digitRun ((c :: rest).drop 3))).length ≤
        3 + digitRun ((c :: rest).drop 3) := by
      simp [List.length_take]
    simp only
    have hdd : List.drop 2 rest = List.drop 3 (c :: rest) := rfl
    rw [hdd] at hq
    omega
  | case3 prev c rest pos hnf ih =>
    rw [finditerGuard, if_neg hnf]
    exact ih

theorem digitRun_le_length (l : List Char) : digitRun l ≤ l.length := by
  induction l with
  | nil => simp [digitRun]
  | cons c cs ih =>
    unfold digitRun
    by_cases hc : c.isDigit = true
    · rw [if_pos hc]; simpa using ih
    · rw [if_neg hc]; simp

theorem all_take_digitRun {l : List Char} {k : Nat} (h : k ≤ digitRun l) :
    (l.take k).all Char.isDigit = true := by
  induction l generalizing k with
  | nil =>
    simp [digitRun] at h
    simp [h]
  | cons c cs ih =>
    unfold digitRun at h
    by_cases hc : c.isDigit = true
    · rw [if_pos hc] at h
      rcases k with _ | k
      · simp
      · simp only [List.take_succ_cons, List.all_cons, hc, Bool.true_and]
        exact ih (by omega)
    · rw [if_neg hc] at h
      have hk : k = 0 := by omega
      subst hk
      simp

theorem synCIB_length {l : List Char} (h : synCIB l = true) : 3 ≤ l.length := by
  rcases l with _ | ⟨a, _ | ⟨b, _ | ⟨c, tl⟩⟩⟩
  · simp [synCIB] at h
  · simp [synCIB] at h
  · simp [synCIB] at h
  · simp

theorem synCIB_take {l : List Char} {k : Nat} (h : synCIB l = true)
    (hk : 3 ≤ k) : synCIB (l.take k) = true := by
  rcases l with _ | ⟨a, _ | ⟨b, _ | ⟨c, tl⟩⟩⟩
  · simp [synCIB] at h
  · simp [synCIB] at h
  · simp [synCIB] at h
  · rcases k with _ | _ | _ | k
    · omega
    · omega
    · omega
    · simpa [synCIB] using h

theorem digit_not_ws {c : Char} (h : c.isDigit = true) : isWs c = false := by
  cases hw : isWs c with
  | false => rfl
  | true =>
    exfalso
    simp only [isWs, Char.isWhitespace, Bool.or_eq_true, decide_eq_true_eq] at hw
    rcases hw with ((h1 | h1) | h1) | h1 <;> (subst h1; exact absurd h (by decide))

theorem synCIB_digits_not_ws {m : List Char} (hs : synCIB m = true)
    (hd : (m.drop 3).all Char.isDigit = true) :
    ∀ c ∈ m, isWs c = false := by
  rcases m with _ | ⟨a, _ | ⟨b, _ | ⟨c, tl⟩⟩⟩
  · simp [synCIB] at hs
  · simp [synCIB] at hs
  · simp [synCIB] at hs
  · rcases synCIB_parts hs with ⟨ha, hb, hc⟩
    intro x hx
    simp only [List.mem_cons] at hx
    rcases hx with rfl | rfl | rfl | hx
    · rcases ha with rfl | rfl <;> decide
    · rcases hb with rfl | rfl <;> decide
    · rcases hc with rfl | rfl <;> decide
    · have : x.isDigit = true := by
        have hall := List.all_eq_true.1 hd
        exact hall x (by simpa using hx)
      exact digit_not_ws this

theorem finditerPlain_mem {cs : List Char} {pos p : Nat} {m : List Char}
    (h : (p, m) ∈ finditerPlain cs pos) :
    pos ≤ p ∧ m = (cs.drop (p - pos)).take m.length ∧ synCIB m = true ∧
      (m.drop 3).all Char.isDigit = true ∧ 10 ≤ m.length ∧ m.length ≤ 15 := by
  induction cs, pos using finditerPlain.induct generalizing p m with
  | case1 pos => simp [finditerPlain] at h
  | case2 c rest pos hfire ih =>
    rw [finditerPlain, if_pos hfire] at h
    rcases hfire with ⟨hsyn, h7⟩
    set cs := c :: rest with hcs
    set d := digitRun (cs.drop 3) with hd
    have hdlen : d ≤ cs.length - 3 := by
      have h1 := digitRun_le_length (cs.drop 3)
      simpa [List.length_drop] using h1
    have hcs3 : 3 ≤ cs.length := synCIB_length hsyn
    have hlen : (cs.take (3 + min d 12)).length = 3 + min d 12 := by
      rw [List.length_take]
      omega
    rcases List.mem_cons.1 h with hhd | htl
    · injection hhd with h1 h2
      subst h1
      refine ⟨le_refl _, ?_, ?_, ?_, ?_, ?_⟩
      · rw [h2, Nat.sub_self, List.drop_zero, hlen]
      · rw [h2]
        exact synCIB_take hsyn (by omega)
      · rw [h2, List.drop_take]
        exact all_take_digitRun (by omega)
      · rw [h2, hlen]; omega
      · rw [h2, hlen]; omega
    · rcases ih htl with ⟨hle, hsl, h3, h4, h5, h6⟩
      refine ⟨by omega, ?_, h3, h4, h5, h6⟩
      rw [List.drop_drop] at hsl
      have : 3 + min d 12 + (p - (pos + (3 + min d 12))) = p - pos := by
        omega
      rwa [this] at hsl
  | case3 c rest pos hnf ih =>
    rw [finditerPlain, if_neg hnf] at h
    rcases ih h with ⟨hle, hsl, h3, h4, h5, h6⟩
    refine ⟨by omega, ?_, h3, h4, h5, h6⟩
    have hdc : (c :: rest).drop (p - pos) = rest.drop (p - pos - 1) := by
      rcases hpp : p - pos with _ | k
      · omega
      · simp
    have harith : p - (pos + 1) = p - pos - 1 := by omega
    rw [harith] at hsl
    rwa [← hdc] at hsl

theorem finditerPlain_pos_le (cs : List Char) (pos : Nat) :
    ∀ q m', (q, m') ∈ finditerPlain cs pos → pos ≤ q := by
  induction cs, pos using finditerPlain.induct with
  | case1 pos => simp [finditerPlain]
  | case2 c rest pos hfire ih =>
    intro q m' hmem
    rw [finditerPlain, if_pos hfire] at hmem
    rcases List.mem_cons.1 hmem with hhd | htl
    · injection hhd with h1 _
      omega
    · have := ih q m' htl
      omega
  | case3 c rest pos hnf ih =>
    intro q m' hmem
    rw [finditerPlain, if_neg hnf] at hmem
    have := ih q m' hmem
    omega

/-- The plain scanner's matches are in strictly increasing position order
and pairwise non-overlapping. -/
theorem finditerPlain_pairwise (cs : List Char) (pos : Nat) :
    (finditerPlain cs pos).Pairwise (fun x y => x.1 + x.2.length ≤ y.1) := by
  induction cs, pos using finditerPlain.induct with
  | case1 pos => simp [finditerPlain]
  | case2 c rest pos hfire ih =>
    rw [finditerPlain, if_pos hfire]
    refine List.Pairwise.cons ?_ ih
    intro y hy
    have hq := finditerPlain_pos_le _ _ y.1 y.2 (by simpa using hy)
    have hlen : ((c :: rest).take
        (3 + min (digitRun ((c :: rest).drop 3)) 12)).length ≤
        3 + min (digitRun ((c :: rest).drop 3)) 12 := by
      simp [List.length_take]
    simp only
    have hdd : List.drop 2 rest = List.drop 3 (c :: rest) := rfl
    rw [hdd] at hq
    omega
  | case3 c rest pos hnf ih =>
    rw [finditerPlain, if_neg hnf]
    exact ih

/-- The finding that `extract_synapse_ids_with_context` builds for one
match (position, matched text). -/
def mkSimpleFinding (contextSize : Nat) (text document : List Char)
    (pm : Nat × List Char) : SimpleFinding :=
  { synapse_id := pm.2
    document := document
    position := pm.1
    context_before :=
      (extract_context text pm.1 (pm.1 + pm.2.length) contextSize).before
    context_after :=
      (extract_context text pm.1 (pm.1 + pm.2.length) contextSize).after
    full_context :=
      (extract_context text pm.1 (pm.1 + pm.2.length) contextSize).full }

theorem extractLoop_skip (dedup : Bool) (csz pos : Nat)
    (text doc m : List Char) (rest : List (Nat × List Char))
    (seen : List (List Char)) (h : dedup ∧ m ∈ seen) :
    extractLoop dedup csz text doc ((pos, m) :: rest) seen =
      extractLoop dedup csz text doc rest seen := by
  rw [extractLoop, if_pos h]

theorem extractLoop_emit (dedup : Bool) (csz pos : Nat)
    (text doc m : List Char) (rest : List (Nat × List Char))
    (seen : List (List Char)) (h : ¬ (dedup ∧ m ∈ seen)) :
    extractLoop dedup csz text doc ((pos, m) :: rest) seen =
      mkSimpleFinding csz text doc (pos, m) ::
        extractLoop dedup csz text doc rest
          (if dedup then m :: seen else seen) := by
  rw [extractLoop, if_neg h]
  rfl

theorem extractLoop_false_eq (csz : Nat) (text doc : List Char)
    (ms : List (Nat × List Char)) (seen : List (List Char)) :
    extractLoop false csz text doc ms seen =
      ms.map (mkSimpleFinding csz text doc) := by
  induction ms generalizing seen with
  | nil => rfl
  | cons pm rest ih =>
    rcases pm with ⟨pos, m⟩
    rw [extractLoop_emit false csz pos text doc m rest seen (by simp)]
    simp only [Bool.false_eq_true, if_false]
    rw [ih]
    rfl

theorem mkSimpleFinding_id (csz : Nat) (text doc : List Char)
    (pm : Nat × List Char) :
    (mkSimpleFinding csz text doc pm).synapse_id = pm.2 := rfl

theorem extractLoop_true_filter_seen (csz : Nat) (text doc X : List Char)
    (ms : List (Nat × List Char)) (seen : List (List Char))
    (hX : X ∈ seen) :
    (extractLoop true csz text doc ms seen).filter
      (fun f => f.synapse_id == X) = [] := by
  induction ms generalizing seen with
  | nil => rfl
  | cons pm rest ih =>
    rcases pm with ⟨pos, m⟩
    by_cases hm : m ∈ seen
    · rw [extractLoop_skip true csz pos text doc m rest seen ⟨rfl, hm⟩]
      exact ih seen hX
    · rw [extractLoop_emit true csz pos text doc m rest seen (by simp [hm])]
      simp only [if_true]
      rw [List.filter_cons]
      have hmX : m ≠ X := fun h => hm (h ▸ hX)
      have hfal : ((mkSimpleFinding csz text doc (pos, m)).synapse_id == X) =
          false := by
        rw [mkSimpleFinding_id]
        simpa using hmX
      simp only [hfal, Bool.false_eq_true, if_false]
      exact ih (m :: seen) (List.mem_cons_of_mem _ hX)

theorem extractLoop_true_filter (csz : Nat) (text doc X : List Char)
    (ms : List (Nat × List Char)) (seen : List (List Char))
    (hX : X ∉ seen) :
    (extractLoop true csz text doc ms seen).filter
        (fun f => f.synapse_id == X) =
      ((ms.filter (fun pm => pm.2 == X)).take 1).map
        (mkSimpleFinding csz text doc) := by
  induction ms generalizing seen with
  | nil => rfl
  | cons pm rest ih =>
    rcases pm with ⟨pos, m⟩
    by_cases hm : m ∈ seen
    · have hmX : m ≠ X := fun h => hX (h ▸ hm)
      rw [extractLoop_skip true csz pos text doc m rest seen ⟨rfl, hm⟩,
        ih seen hX, List.filter_cons]
      have : ((pos, m).2 == X) = false := by simpa using hmX
      simp only [this, Bool.false_eq_true, if_false]
    · rw [extractLoop_emit true csz pos text doc m rest seen (by simp [hm])]
      simp only [if_true]
      by_cases hmX : m = X
      · subst hmX
        rw [List.filter_cons]
        have hsyn : ((mkSimpleFinding csz text doc (pos, m)).synapse_id == m)
            = true := by rw [mkSimpleFinding_id]; simp
        simp only [hsyn, if_true]
        rw [extractLoop_true_filter_seen csz text doc m rest (m :: seen)
          (by simp)]
        rw [List.filter_cons]
        simp
      · rw [List.filter_cons]
        have hsyn : ((mkSimpleFinding csz text doc (pos, m)).synapse_id == X)
            = false := by rw [mkSimpleFinding_id]; simpa using hmX
        simp only [hsyn, Bool.false_eq_true, if_false]
        have hX' : X ∉ m :: seen := by
          simp only [List.mem_cons]
          rintro (h | h)
          · exact hmX h.symm
          · exact hX h
        rw [ih (m :: seen) hX']
        rw [List.filter_cons]
        have : ((pos, m).2 == X) = false := by simpa using hmX
        simp only [this, Bool.false_eq_true, if_false]

/-- C4: for a document whose text yields the identifier `X` at `k > 1`
match positions, scanning with deduplication enabled yields exactly one
finding for `X`, namely the one built from the first match in scan order;
scanning with deduplication disabled yields exactly `k` findings for `X`,
with strictly increasing positions.  The `seen` set is created afresh for
每 call, so it is per document by construction. -/
theorem claim_C4 (csz : Nat) (text doc X : List Char)
    (hk : 1 < ((finditerPlain text 0).filter (fun pm => pm.2 == X)).length) :
    ((extract_synapse_ids_with_context true csz text doc).filter
        (fun f => f.synapse_id == X)).length = 1 ∧
    (extract_synapse_ids_with_context true csz text doc).filter
        (fun f => f.synapse_id == X) =
      (((finditerPlain text 0).filter (fun pm => pm.2 == X)).take 1).map
        (mkSimpleFinding csz text doc) ∧
    ((extract_synapse_ids_with_context false csz text doc).filter
        (fun f => f.synapse_id == X)).length =
      ((finditerPlain text 0).filter (fun pm => pm.2 == X)).length ∧
    (((extract_synapse_ids_with_context false csz text doc).filter
        (fun f => f.synapse_id == X)).map (fun f => f.position)).Pairwise
      (· < ·) := by
  have htrue := extractLoop_true_filter csz text doc X (finditerPlain text 0)
    [] (by simp)
  have hfalse := extractLoop_false_eq csz text doc (finditerPlain text 0) []
  have hcomp : ((fun f : SimpleFinding => f.synapse_id == X) ∘
      mkSimpleFinding csz text doc) =
      (fun pm : Nat × List Char => pm.2 == X) := by
    funext pm
    simp only [Function.comp_apply]
    rw [mkSimpleFinding_id]
  have hff : (extract_synapse_ids_with_context false csz text doc).filter
      (fun f => f.synapse_id == X) =
      ((finditerPlain text 0).filter (fun pm => pm.2 == X)).map
        (mkSimpleFinding csz text doc) := by
    unfold extract_synapse_ids_with_context
    rw [hfalse, List.filter_map, hcomp]
  refine ⟨?_, htrue, ?_, ?_⟩
  · unfold extract_synapse_ids_with_context
    rw [htrue, List.length_map, List.length_take]
    omega
  · rw [hff, List.length_map]
  · rw [hff, List.map_map]
    have hpos : (fun f : SimpleFinding => f.position) ∘
        mkSimpleFinding csz text doc = (fun pm : Nat × List Char => pm.1) := by
      funext pm
      rfl
    rw [hpos]
    rw [List.pairwise_map]
    have hsub : List.Sublist
        ((finditerPlain text 0).filter (fun pm => pm.2 == X))
        (finditerPlain text 0) := List.filter_sublist _
    have hpw := List.Pairwise.sublist hsub (finditerPlain_pairwise text 0)
    refine hpw.imp_of_mem ?_
    intro a b ha _ hab
    have hmem := finditerPlain_mem (hsub.subset ha)
    rcases a with ⟨pa, ma⟩
    have : 10 ≤ ma.length := hmem.2.2.2.2.1
    simp only at hab ⊢
    omega

/-- Witness for C4: a document containing `syn1234567` twice and
`syn9876543` once; with deduplication the filter for `syn1234567` has
exactly one element. -/
theorem claim_C4_witness :
    1 < ((finditerPlain "x syn1234567 a syn1234567 b syn9876543 y".toList
        0).filter (fun pm => pm.2 == "syn1234567".toList)).length ∧
    ((extract_synapse_ids_with_context true 20
        "x syn1234567 a syn1234567 b syn9876543 y".toList
        "doc.txt".toList).filter
        (fun f => f.synapse_id == "syn1234567".toList)).length = 1 := by
  have hrw : finditerPlain
      "x syn1234567 a syn1234567 b syn9876543 y".toList 0 =
      finditerPlainF 64
        "x syn1234567 a syn1234567 b syn9876543 y".toList 0 :=
    (finditerPlainF_eq 64 _ 0 (by decide)).symm
  refine ⟨by rw [hrw]; decide, ?_⟩
  exact (claim_C4 20 "x syn1234567 a syn1234567 b syn9876543 y".toList
    "doc.txt".toList "syn1234567".toList (by rw [hrw]; decide)).1

/-- C6: when the XML parse of the article fails (the parser yields
`none`, modelling a raised `ParseError`), `process_article` returns
`(None, [])` and produces no findings; the failure is contained in the
return value rather than escaping. -/
theorem claim_C6 (parseXML : List Char → Option Element) (xml : List Char)
    (csz : Nat) (h : parseXML xml = none) :
    process_article parseXML xml csz = (none, []) := by
  unfold process_article
  rw [h]

/-- Witness for C6 with a parser that rejects its input. -/
theorem claim_C6_witness :
    (fun _ : List Char => (none : Option Element)) "<article>".toList
        = none ∧
    process_article (fun _ => none) "<article>".toList 25 = (none, []) :=
  ⟨rfl, claim_C6 (fun _ => none) "<article>".toList 25 rfl⟩

theorem containsSub_infix_iff (pat text : List Char) :
    containsSub pat text = true ↔ pat <:+: text := by
  rw [containsSub_iff]
  constructor
  · rintro ⟨i, hi⟩
    unfold occursAt at hi
    rcases hi with ⟨t, ht⟩
    refine ⟨text.take i, t, ?_⟩
    rw [List.append_assoc, ht, List.take_append_drop]
  · rintro ⟨s, t, rfl⟩
    refine ⟨s.length, ?_⟩
    unfold occursAt
    rw [List.append_assoc, List.drop_left]
    exact ⟨t, rfl⟩

theorem map_eq_self_of {f : Char → Char} {l : List Char}
    (h : ∀ c ∈ l, f c = c) : l.map f = l := by
  induction l with
  | nil => rfl
  | cons c cs ih =>
    rw [List.map_cons, h c (by simp), ih (fun x hx => h x (by simp [hx]))]

theorem containsSub_map_quoteFix {s ctx : List Char}
    (hq : ∀ c ∈ s, quoteFix c = c) (h : containsSub s ctx = true) :
    containsSub s (ctx.map quoteFix) = true := by
  rw [containsSub_infix_iff] at h ⊢
  rcases h with ⟨u, v, rfl⟩
  refine ⟨u.map quoteFix, v.map quoteFix, ?_⟩
  have hs : s.map quoteFix = s := map_eq_self_of hq
  calc u.map quoteFix ++ s ++ v.map quoteFix
      = u.map quoteFix ++ s.map quoteFix ++ v.map quoteFix := by rw [hs]
  _ = (u ++ s ++ v).map quoteFix := by rw [List.map_append, List.map_append]

theorem quoteFix_ne_quote (c : Char) : quoteFix c ≠ '"' := by
  unfold quoteFix
  by_cases h : c = '"'
  · rw [if_pos h]; decide
  · rw [if_neg h]; exact h

theorem validSyn_chars {s : List Char} (h : validSyn s = true) :
    ∀ c ∈ s, c = 's' ∨ c = 'y' ∨ c = 'n' ∨ c.isDigit = true := by
  unfold validSyn at h
  simp only [Bool.and_eq_true, beq_iff_eq] at h
  obtain ⟨⟨htake, hdig⟩, -⟩ := h
  intro c hc
  rw [← List.take_append_drop 3 s] at hc
  rcases List.mem_append.1 hc with hmem | hmem
  · rw [htake] at hmem
    simp only [List.mem_cons, List.not_mem_nil, or_false] at hmem
    tauto
  · exact Or.inr (Or.inr (Or.inr (List.all_eq_true.1 hdig c hmem)))

theorem validSyn_quoteFree {s : List Char} (h : validSyn s = true) :
    ∀ c ∈ s, quoteFix c = c := by
  intro c hc
  unfold quoteFix
  rw [if_neg]
  rcases validSyn_chars h c hc with rfl | rfl | rfl | hd
  · decide
  · decide
  · decide
  · intro h0
    rw [h0] at hd
    exact absurd hd (by decide)

theorem coreContext_length_le (text : List Char) (pos mlen : Nat) :
    (coreContext text pos mlen).length ≤ mlen + 50 := by
  unfold coreContext
  calc (strip ((text.take (min text.length (pos + mlen + 25))).drop
      (pos - 25))).length
      ≤ ((text.take (min text.length (pos + mlen + 25))).drop
        (pos - 25)).length := strip_length_le _
  _ ≤ mlen + 50 := by
      rw [List.length_drop, List.length_take]
      omega

theorem buildCoreFindings_mem {pmcid text : List Char}
    {ms : List (Nat × List Char)} {f : CoreFinding}
    (hf : f ∈ buildCoreFindings pmcid text ms) :
    f.pmcid = pmcid ∧ validSyn f.synid = true ∧ 10 ≤ f.context.length ∧
      containsSub f.synid f.context = true ∧ (∀ c ∈ f.context, c ≠ '"') ∧
      ∃ pos m, (pos, m) ∈ ms ∧ f.synid = lowerList m ∧
        f.context = (coreContext text pos m.length).map quoteFix := by
  induction ms with
  | nil => simp [buildCoreFindings] at hf
  | cons pm rest ih =>
    rcases pm with ⟨pos, m⟩
    rw [buildCoreFindings] at hf
    by_cases hg : validSyn (lowerList m) = true ∧
        10 ≤ (coreContext text pos m.length).length ∧
        containsSub (lowerList m) (coreContext text pos m.length) = true
    · rw [if_pos hg] at hf
      rcases List.mem_cons.1 hf with rfl | htl
      · refine ⟨rfl, hg.1, ?_, ?_, ?_, pos, m, by simp, rfl, rfl⟩
        · simpa [List.length_map] using hg.2.1
        · exact containsSub_map_quoteFix (validSyn_quoteFree hg.1) hg.2.2
        · intro c hc
          rcases List.mem_map.1 hc with ⟨x, -, rfl⟩
          exact quoteFix_ne_quote x
      · rcases ih htl with ⟨h1, h2, h3, h4, h5, pos', m', hm', h6, h7⟩
        exact ⟨h1, h2, h3, h4, h5, pos', m', by simp [hm'], h6, h7⟩
    · rw [if_neg hg] at hf
      rcases ih hf with ⟨h1, h2, h3, h4, h5, pos', m', hm', h6, h7⟩
      exact ⟨h1, h2, h3, h4, h5, pos', m', by simp [hm'], h6, h7⟩

theorem extractPmcId_prefix {root : Element} {xml pid : List Char}
    (h : extractPmcId root xml = some pid) : pmcLit <+: pid := by
  unfold extractPmcId at h
  rcases hr : pmcRawOf root xml with _ | praw
  · rw [hr] at h
    exact absurd h (by simp)
  · rw [hr] at h
    injection h with h
    subst h
    by_cases hp : pmcLit.isPrefixOf praw = true
    · rw [if_pos hp]
      rwa [List.isPrefixOf_iff_prefix] at hp
    · rw [if_neg hp]
      exact List.prefix_append _ _

theorem toLower_digit {c : Char} (h : c.isDigit = true) : c.toLower = c := by
  simp only [Char.isDigit, Bool.and_eq_true, decide_eq_true_eq] at h
  unfold Char.toLower
  rw [if_neg]
  rintro ⟨h1, -⟩
  have h3 : c.toNat ≤ 57 := UInt32.toNat_le_of_le (by decide) h.2
  omega

theorem validSyn_lower {s : List Char} (h : validSyn s = true) :
    lowerList s = s := by
  unfold lowerList
  apply map_eq_self_of
  intro c hc
  rcases validSyn_chars h c hc with rfl | rfl | rfl | hd
  · decide
  · decide
  · decide
  · exact toLower_digit hd

/-- C9: every finding produced by `process_article` has a `pmcid` that
starts with `PMC`, a `synid` matching `^syn\d{7,12}$` and already in
lowercase, a context of length at least 10 that contains the `synid` as a
substring, and a context free of double quotes. -/
theorem claim_C9 (parseXML : List Char → Option Element) (xml : List Char)
    (csz : Nat) (f : CoreFinding)
    (hf : f ∈ (process_article parseXML xml csz).2) :
    pmcLit <+: f.pmcid ∧ validSyn f.synid = true ∧
      lowerList f.synid = f.synid ∧ 10 ≤ f.context.length ∧
      containsSub f.synid f.context = true ∧ ∀ c ∈ f.context, c ≠ '"' := by
  unfold process_article at hf
  rcases hp : parseXML xml with _ | root
  · rw [hp] at hf; simp at hf
  · rw [hp] at hf
    dsimp only at hf
    rcases he : extractPmcId root xml with _ | pid
    · rw [he] at hf; simp at hf
    · rw [he] at hf
      dsimp only at hf
      rcases buildCoreFindings_mem hf with ⟨h1, h2, h3, h4, h5, -⟩
      exact ⟨h1 ▸ extractPmcId_prefix he, h2, validSyn_lower h2, h3, h4, h5⟩

/-- Article fragment with a `pmcid`-typed `article-id` and one Synapse id
in the abstract (the same shape the repository's own
`test_bioregistry_prefix.py` uses). -/
def sampleXml : List Char :=
  "<article><article-id pub-id-type=\"pmcid\">PMC1234567</article-id><article-title>Test Article</article-title><abstract><p>This article mentions a Synapse dataset syn1234567.</p></abstract></article>".toList

/-- Parse tree of `sampleXml` as `xml.etree.ElementTree` would build it
(no inter-tag whitespace, so all `text`/`tail` slots between tags are
absent). -/
def sampleTree : Element :=
  .mk "article".toList [] none none
    [ .mk "article-id".toList
        [ ("pub-id-type".toList, "pmcid".toList) ]
        (some "PMC1234567".toList) none [],
      .mk "article-title".toList [] (some "Test Article".toList) none [],
      .mk "abstract".toList [] none none
        [ .mk "p".toList []
            (some "This article mentions a Synapse dataset syn1234567.".toList)
            none [] ] ]

/-- Parser stub returning the parse tree of `sampleXml`. -/
def sampleParse : List Char → Option Element := fun _ => some sampleTree

/-- C5: `process_article` attaches the bare `PMC1234567` (no `pmc:`
namespace) to every finding of the sample article, contradicting the
repository's own test `test_pmc_id_bioregistry_prefix`, which requires
`pmc:PMC1234567`. -/
theorem claim_C5 :
    (process_article sampleParse sampleXml 25).1 =
      some "PMC1234567".toList ∧
    (process_article sampleParse sampleXml 25).2 ≠ [] ∧
    ∀ f ∈ (process_article sampleParse sampleXml 25).2,
      f.pmcid = "PMC1234567".toList ∧ ¬ "pmc:".toList <+: f.pmcid := by
  rw [← process_articleF_eq]
  refine ⟨by decide, by decide, by decide⟩

/-- Witness for C9 at the sample article: the single finding it yields
satisfies the invariant, via `claim_C9`. -/
theorem claim_C9_witness :
    (⟨"PMC1234567".toList, "syn1234567".toList,
        "ntions a Synapse dataset syn1234567.".toList⟩ : CoreFinding) ∈
      (process_article sampleParse sampleXml 25).2 ∧
    pmcLit <+: (⟨"PMC1234567".toList, "syn1234567".toList,
        "ntions a Synapse dataset syn1234567.".toList⟩ : CoreFinding).pmcid :=
  ⟨by rw [← process_articleF_eq]; decide,
    (claim_C9 sampleParse sampleXml 25 _
      (by rw [← process_articleF_eq]; decide)).1⟩

/-- Article fragment whose only Synapse id is written in uppercase. -/
def c10Xml : List Char :=
  "<article><article-id pub-id-type=\"pmcid\">PMC7654321</article-id><abstract><p>Uppercase id SYN1234567 appears in this sentence.</p></abstract></article>".toList

/-- Parse tree of `c10Xml`. -/
def c10Tree : Element :=
  .mk "article".toList [] none none
    [ .mk "article-id".toList
        [ ("pub-id-type".toList, "pmcid".toList) ]
        (some "PMC7654321".toList) none [],
      .mk "abstract".toList [] none none
        [ .mk "p".toList []
            (some "Uppercase id SYN1234567 appears in this sentence.".toList)
            none [] ] ]

/-- Parser stub returning the parse tree of `c10Xml`. -/
def c10Parse : List Char → Option Element := fun _ => some c10Tree

/-- C10: an article whose text contains `SYN1234567` in uppercase: the
case-insensitive scanner matches it (one match, lowercasing to
`syn1234567`), but the lowercased id does not occur in the original-case
text, so the `syn_id in context` check discards the match and
`process_article` returns no findings at all. -/
theorem claim_C10 :
    ∃ (parseXML : List Char → Option Element) (xml : List Char)
      (root : Element),
      parseXML xml = some root ∧
      containsSub "SYN1234567".toList (articleText root) = true ∧
      (finditerGuard false (articleText root) 0).map
        (fun pm => lowerList pm.2) = [ "syn1234567".toList ] ∧
      containsSub "syn1234567".toList (articleText root) = false ∧
      process_article parseXML xml 25 = (some "PMC7654321".toList, []) := by
  refine ⟨c10Parse, c10Xml, c10Tree, rfl, ?_, ?_, ?_, ?_⟩
  · rw [← articleTextF_eq]
    decide
  · rw [← articleTextF_eq, ← finditerGuardF_eq (articleTextF c10Tree).length
      false (articleTextF c10Tree) 0 (le_refl _)]
    decide
  · rw [← articleTextF_eq]
    decide
  · rw [← process_articleF_eq]
    decide

/-- C8: for the same text and the same match slice (a nonempty,
whitespace-free target inside the text), a larger `context_size` produces
a `full` context string at least as long: the whitespace trimming of the
before/after windows cannot make the rendered context shrink as the
window grows. -/
theorem claim_C8 (text : List Char) (s e csz1 csz2 : Nat)
    (hse : s < e) (hel : e ≤ text.length)
    (htw : ∀ c ∈ (text.take e).drop s, isWs c = false)
    (hcs : csz1 ≤ csz2) :
    (extract_context text s e csz1).full.length ≤
      (extract_context text s e csz2).full.length :=
  extract_context_len_mono text s e csz1 csz2 hse hel htw hcs

/-- Witness for C8 on a concrete text and match. -/
theorem claim_C8_witness :
    (4 < 14 ∧ 14 ≤ "abc syn1234567 xyz".toList.length ∧
      (∀ c ∈ ("abc syn1234567 xyz".toList.take 14).drop 4,
        isWs c = false) ∧ 2 ≤ 5) ∧
    (extract_context "abc syn1234567 xyz".toList 4 14 2).full.length ≤
      (extract_context "abc syn1234567 xyz".toList 4 14 5).full.length :=
  ⟨⟨by decide, by decide, by decide, by decide⟩,
    claim_C8 "abc syn1234567 xyz".toList 4 14 2 5 (by decide) (by decide)
      (by decide) (by decide)⟩

/-- C1 counterexample: the Identifier Matcher of the simple pipeline
(`SynapseMiner.extract_synapse_ids_with_context` in `src/core.py`, plain
pattern `syn\d{7,12}` without boundary guards) returns the identifier
`SYN1234567` without lowercasing it, and inside the 13-digit run
`syn1234567890123` it returns the 12-digit prefix `syn123456789012` —
both contradicting the claim as stated. -/
theorem claim_C1_counterexample :
    (∃ f ∈ extract_synapse_ids_with_context true 100
        "see SYN1234567 here".toList "d.txt".toList,
      f.synapse_id ≠ lowerList f.synapse_id) ∧
    (∃ f ∈ extract_synapse_ids_with_context true 100
        "ref syn1234567890123 x".toList "d.txt".toList,
      f.synapse_id = "syn123456789012".toList) := by
  constructor
  · unfold extract_synapse_ids_with_context
    rw [← finditerPlainF_eq 64 _ 0 (by decide)]
    decide
  · unfold extract_synapse_ids_with_context
    rw [← finditerPlainF_eq 64 _ 0 (by decide)]
    decide

/-- C1 amended: the corpus pipeline's Identifier Matcher (the guarded
pattern of `process_article`) returns exactly the matches described by
the claim: positions where `syn` (case-insensitive) is followed by a
maximal run of 7 to 12 digits and is not preceded by a digit, the matched
text is that exact slice, matches are non-overlapping and in increasing
order, and the identifier attached to a finding is lowercased.  The
simple pipeline's matcher does not satisfy the claim (see the
counterexample). -/
theorem claim_C1 :
    (∀ (text : List Char) (p : Nat) (m : List Char),
      (p, m) ∈ finditerGuard false text 0 ↔ guardSpecAt false text p m) ∧
    (∀ (text : List Char) (pos : Nat),
      (finditerGuard false text pos).Pairwise
        (fun x y => x.1 + x.2.length ≤ y.1)) ∧
    (∀ (parseXML : List Char → Option Element) (xml : List Char)
      (csz : Nat) (f : CoreFinding),
      f ∈ (process_article parseXML xml csz).2 →
        f.synid = lowerList f.synid) := by
  refine ⟨?_, ?_, ?_⟩
  · intro text p m
    rw [finditerGuard_mem_iff]
    constructor
    · rintro ⟨i, rfl, hspec⟩
      simpa using hspec
    · intro hspec
      exact ⟨p, by omega, hspec⟩
  · intro text pos
    exact finditerGuard_pairwise false text pos
  · intro parseXML xml csz f hf
    unfold process_article at hf
    rcases hp : parseXML xml with _ | root
    · rw [hp] at hf; simp at hf
    · rw [hp] at hf
      dsimp only at hf
      rcases he : extractPmcId root xml with _ | pid
      · rw [he] at hf; simp at hf
      · rw [he] at hf
        dsimp only at hf
        rcases buildCoreFindings_mem hf with ⟨-, h2, -⟩
        exact (validSyn_lower h2).symm

/-- Witness for C1 (amended) at a concrete text and a concrete finding. -/
theorem claim_C1_witness :
    ((2, "syn1234567".toList) ∈
      finditerGuard false "a syn1234567. b".toList 0) ∧
    (⟨"PMC1234567".toList, "syn1234567".toList,
        "ntions a Synapse dataset syn1234567.".toList⟩ : CoreFinding).synid =
      lowerList (⟨"PMC1234567".toList, "syn1234567".toList,
        "ntions a Synapse dataset syn1234567.".toList⟩ : CoreFinding).synid := by
  constructor
  · exact (claim_C1.1 "a syn1234567. b".toList 2 "syn1234567".toList).2
      (by decide)
  · exact claim_C1.2.2 sampleParse sampleXml 25 _
      (by rw [← process_articleF_eq]; decide)

theorem extract_context_full_view {text : List Char} (s e csz : Nat)
    (hemp : text.isEmpty = false) :
    (extract_context text s e csz).full =
      strip ((strip ((text.take s).drop (s - csz))) ++ ' ' ::
        ((text.take e).drop s) ++ ' ' ::
        (strip ((text.take (min text.length (e + csz))).drop e))) := by
  unfold extract_context
  rw [hemp]
  simp only [Bool.false_eq_true, if_false]

theorem extractLoop_mem {dedup : Bool} {csz : Nat} {text doc : List Char}
    {ms : List (Nat × List Char)} {seen : List (List Char)}
    {f : SimpleFinding} (hf : f ∈ extractLoop dedup csz text doc ms seen) :
    ∃ pm ∈ ms, f = mkSimpleFinding csz text doc pm := by
  induction ms generalizing seen with
  | nil => simp [extractLoop] at hf
  | cons pm rest ih =>
    rcases pm with ⟨pos, m⟩
    by_cases hskip : dedup = true ∧ m ∈ seen
    · rw [extractLoop_skip dedup csz pos text doc m rest seen hskip] at hf
      rcases ih hf with ⟨pm', h1, h2⟩
      exact ⟨pm', by simp [h1], h2⟩
    · rw [extractLoop_emit dedup csz pos text doc m rest seen hskip] at hf
      rcases List.mem_cons.1 hf with rfl | htl
      · exact ⟨(pos, m), by simp, rfl⟩
      · rcases ih htl with ⟨pm', h1, h2⟩
        exact ⟨pm', by simp [h1], h2⟩

/-- Invariants of a finding of the simple pipeline: the identifier occurs
inside the rendered full context, and the full context is bounded by
twice the context size plus the identifier length plus the two joining
spaces. -/
theorem simple_finding_invariant {dedup : Bool} {csz : Nat}
    {text doc : List Char} {f : SimpleFinding}
    (hf : f ∈ extract_synapse_ids_with_context dedup csz text doc) :
    containsSub f.synapse_id f.full_context = true ∧
      f.full_context.length ≤ 2 * csz + f.synapse_id.length + 2 := by
  unfold extract_synapse_ids_with_context at hf
  rcases extractLoop_mem hf with ⟨⟨p, m⟩, hpm, rfl⟩
  obtain ⟨-, hsl, hsyn, hdig, hlen10, -⟩ := finditerPlain_mem hpm
  simp only [Nat.sub_zero] at hsl
  have hmlen : m.length ≤ text.length - p := by
    have hl := congrArg List.length hsl
    simp only [List.length_take, List.length_drop] at hl
    omega
  have hne : text ≠ [] := by
    intro h0
    subst h0
    simp only [List.length_nil, Nat.zero_sub] at hmlen
    omega
  have hemp : text.isEmpty = false := by simpa [List.isEmpty_iff] using hne
  have htarget : (text.take (p + m.length)).drop p = m := by
    rw [List.drop_take]
    have : p + m.length - p = m.length := by omega
    rw [this]
    exact hsl.symm
  have hmne : m ≠ [] := by
    intro h0
    rw [h0] at hlen10
    simp at hlen10
  have hmws : ∀ c ∈ m, isWs c = false := synCIB_digits_not_ws hsyn hdig
  have hsid : (mkSimpleFinding csz text doc (p, m)).synapse_id = m := rfl
  have hfc : (mkSimpleFinding csz text doc (p, m)).full_context =
      (extract_context text p (p + m.length) csz).full := rfl
  rw [hsid, hfc, extract_context_full_view p (p + m.length) csz hemp,
    htarget]
  constructor
  · rw [strip_glue _ _ _ (lstrip_strip _) (lstrip_strip _) (rstrip_strip _)
      hmne hmws]
    rw [containsSub_infix_iff]
    exact ⟨_, _, rfl⟩
  · have hb : (strip ((text.take p).drop (p - csz))).length ≤ csz := by
      have h1 := strip_length_le ((text.take p).drop (p - csz))
      have h2 : ((text.take p).drop (p - csz)).length =
          min p text.length - (p - csz) := by
        simp [List.length_drop, List.length_take]
      omega
    have ha : (strip ((text.take (min text.length (p + m.length + csz))).drop
        (p + m.length))).length ≤ csz := by
      have h1 := strip_length_le
        ((text.take (min text.length (p + m.length + csz))).drop
          (p + m.length))
      have h2 : (((text.take (min text.length (p + m.length + csz))).drop
          (p + m.length))).length =
          min (min text.length (p + m.length + csz)) text.length -
            (p + m.length) := by
        simp [List.length_drop, List.length_take]
      omega
    have hs := strip_length_le
      ((strip ((text.take p).drop (p - csz))) ++ ' ' :: m ++ ' ' ::
        (strip ((text.take (min text.length (p + m.length + csz))).drop
          (p + m.length))))
    simp only [List.length_append, List.length_cons] at hs
    omega

/-- Destructured form of `process_article` membership. -/
theorem process_article_mem_build {parseXML : List Char → Option Element}
    {xml : List Char} {csz : Nat} {f : CoreFinding}
    (hf : f ∈ (process_article parseXML xml csz).2) :
    ∃ root pid, parseXML xml = some root ∧ extractPmcId root xml = some pid ∧
      f ∈ buildCoreFindings pid (articleText root)
        (finditerGuard false (articleText root) 0) := by
  unfold process_article at hf
  rcases hp : parseXML xml with _ | root
  · rw [hp] at hf; simp at hf
  · rw [hp] at hf
    dsimp only at hf
    rcases he : extractPmcId root xml with _ | pid
    · rw [he] at hf; simp at hf
    · rw [he] at hf
      dsimp only at hf
      exact ⟨root, pid, rfl, he, hf⟩

/-- C3 counterexample: with `context_size = 2` the text `absyn1234567cd`
yields a finding whose full context `ab syn1234567 cd` has length 16,
exceeding the claimed bound `2*context_size + len(identifier) = 14` —
the two joining spaces are not accounted for by the claim. -/
theorem claim_C3_counterexample :
    ∃ f ∈ extract_synapse_ids_with_context true 2 "absyn1234567cd".toList
        "d.txt".toList,
      2 * 2 + f.synapse_id.length < f.full_context.length := by
  unfold extract_synapse_ids_with_context
  rw [← finditerPlainF_eq 32 _ 0 (by decide)]
  decide

/-- C3 amended: for every finding, the identifier is a substring of the
context; the context length is bounded by `2*context_size +
len(identifier) + 2` in the simple pipeline (the two joining spaces) and
by `2*25 + len(identifier)` in the corpus pipeline (whose window is the
fixed 25 and whose slice adds no separators). -/
theorem claim_C3 :
    (∀ (dedup : Bool) (csz : Nat) (text doc : List Char)
      (f : SimpleFinding),
      f ∈ extract_synapse_ids_with_context dedup csz text doc →
        containsSub f.synapse_id f.full_context = true ∧
        f.full_context.length ≤ 2 * csz + f.synapse_id.length + 2) ∧
    (∀ (parseXML : List Char → Option Element) (xml : List Char)
      (csz : Nat) (f : CoreFinding),
      f ∈ (process_article parseXML xml csz).2 →
        containsSub f.synid f.context = true ∧
        f.context.length ≤ 2 * 25 + f.synid.length) := by
  constructor
  · intro dedup csz text doc f hf
    exact simple_finding_invariant hf
  · intro parseXML xml csz f hf
    rcases process_article_mem_build hf with ⟨root, pid, -, -, hb⟩
    rcases buildCoreFindings_mem hb with
      ⟨-, -, -, h4, -, pos, m, -, h6, h7⟩
    refine ⟨h4, ?_⟩
    rw [h7, h6]
    have h8 := coreContext_length_le (articleText root) pos m.length
    simp only [List.length_map, lowerList]
    omega

/-- Witness for C3 (amended) at concrete findings of both pipelines. -/
theorem claim_C3_witness :
    (mkSimpleFinding 20 "x syn1234567 y".toList "d.txt".toList
        (2, "syn1234567".toList) ∈
      extract_synapse_ids_with_context true 20 "x syn1234567 y".toList
        "d.txt".toList) ∧
    (mkSimpleFinding 20 "x syn1234567 y".toList "d.txt".toList
        (2, "syn1234567".toList)).full_context.length ≤
      2 * 20 + (mkSimpleFinding 20 "x syn1234567 y".toList "d.txt".toList
        (2, "syn1234567".toList)).synapse_id.length + 2 ∧
    (⟨"PMC1234567".toList, "syn1234567".toList,
        "ntions a Synapse dataset syn1234567.".toList⟩ :
      CoreFinding).context.length ≤
      2 * 25 + (⟨"PMC1234567".toList, "syn1234567".toList,
        "ntions a Synapse dataset syn1234567.".toList⟩ :
      CoreFinding).synid.length := by
  have hmem : mkSimpleFinding 20 "x syn1234567 y".toList "d.txt".toList
      (2, "syn1234567".toList) ∈
      extract_synapse_ids_with_context true 20 "x syn1234567 y".toList
        "d.txt".toList := by
    unfold extract_synapse_ids_with_context
    rw [← finditerPlainF_eq 32 _ 0 (by decide)]
    decide
  have hmem2 : (⟨"PMC1234567".toList, "syn1234567".toList,
      "ntions a Synapse dataset syn1234567.".toList⟩ : CoreFinding) ∈
      (process_article sampleParse sampleXml 25).2 := by
    rw [← process_articleF_eq]
    decide
  exact ⟨hmem, (claim_C3.1 true 20 _ _ _ hmem).2,
    (claim_C3.2 sampleParse sampleXml 25 _ hmem2).2⟩

theorem dropDupKeep_length :
    ∀ (l : List CombinedRow) (seen : List (List Char × List Char × List Char)),
      (dropDupKeep l seen).length =
        (((l.map rowKey).toFinset) \ seen.toFinset).card := by
  intro l
  induction l with
  | nil => intro seen; simp [dropDupKeep]
  | cons r rs ih =>
    intro seen
    rw [dropDupKeep]
    by_cases h : rowKey r ∈ seen
    · rw [if_pos h, ih seen]
      rw [List.map_cons, List.toFinset_cons,
        Finset.insert_sdiff_of_mem _ (List.mem_toFinset.2 h)]
    · rw [if_neg h]
      simp only [List.length_cons, ih (rowKey r :: seen), List.map_cons,
        List.toFinset_cons]
      rw [Finset.insert_sdiff_of_not_mem _
        (fun hk => h (List.mem_toFinset.1 hk))]
      have hsd : (rs.map rowKey).toFinset \ insert (rowKey r) seen.toFinset =
          ((rs.map rowKey).toFinset \ seen.toFinset).erase (rowKey r) := by
        ext x
        simp only [Finset.mem_sdiff, Finset.mem_erase, Finset.mem_insert]
        tauto
      rw [hsd]
      by_cases hx : rowKey r ∈ (rs.map rowKey).toFinset \ seen.toFinset
      · rw [Finset.insert_eq_self.2 hx]
        rw [← Finset.card_erase_add_one hx]
      · rw [Finset.card_insert_of_not_mem hx,
          Finset.erase_eq_of_not_mem hx]

theorem dropDupKeep_subset :
    ∀ (l : List CombinedRow) (seen : List (List Char × List Char × List Char))
      (r : CombinedRow), r ∈ dropDupKeep l seen → r ∈ l := by
  intro l
  induction l with
  | nil => intro seen r h; simpa [dropDupKeep] using h
  | cons q rs ih =>
    intro seen r h
    rw [dropDupKeep] at h
    by_cases hq : rowKey q ∈ seen
    · rw [if_pos hq] at h
      exact List.mem_cons_of_mem _ (ih _ _ h)
    · rw [if_neg hq] at h
      rcases List.mem_cons.1 h with rfl | h'
      · simp
      · exact List.mem_cons_of_mem _ (ih _ _ h')

/-- C7: combining a set of batch tables keeps exactly one row per
distinct key (all columns except the provenance column `source_file`), so
the combined row count equals the number of distinct such keys across the
concatenated annotated inputs; and every surviving row carries the
source-file name derived from the batch file it came from, along with a
data row of that batch. -/
theorem claim_C7 (files : List (List Char × List CoreFinding)) :
    (combine_results files).length =
      ((annotateRows files).map rowKey).toFinset.card ∧
    ∀ r ∈ combine_results files, ∃ nm rows, (nm, rows) ∈ files ∧
      r.source_file = sourceNameOf nm ∧
      (⟨r.pmcid, r.synid, r.context⟩ : CoreFinding) ∈ rows := by
  constructor
  · unfold combine_results
    rw [dropDupKeep_length]
    simp
  · intro r hr
    unfold combine_results at hr
    have hr' : r ∈ annotateRows files := dropDupKeep_subset _ _ _ hr
    unfold annotateRows at hr'
    rcases List.mem_flatMap.1 hr' with ⟨fr, hfr, hrow⟩
    rcases List.mem_map.1 hrow with ⟨row, hrowmem, hre⟩
    subst hre
    refine ⟨fr.1, fr.2, by simpa using hfr, rfl, ?_⟩
    rcases row with ⟨a, b, c⟩
    exact hrowmem

/-- Witness for C7: two batch files holding four rows of which two are
distinct up to provenance; the combined table has exactly 2 rows. -/
theorem claim_C7_witness :
    (combine_results
        [ ("results.csv.x1.xml.gz.csv".toList,
            [ ⟨"PMC1".toList, "syn1234567".toList, "c1".toList⟩,
              ⟨"PMC1".toList, "syn1234567".toList, "c1".toList⟩ ]),
          ("results.csv.x2.xml.gz.csv".toList,
            [ ⟨"PMC1".toList, "syn1234567".toList, "c1".toList⟩,
              ⟨"PMC2".toList, "syn7654321".toList, "c2".toList⟩ ]) ]).length =
      ((annotateRows
        [ ("results.csv.x1.xml.gz.csv".toList,
            [ ⟨"PMC1".toList, "syn1234567".toList, "c1".toList⟩,
              ⟨"PMC1".toList, "syn1234567".toList, "c1".toList⟩ ]),
          ("results.csv.x2.xml.gz.csv".toList,
            [ ⟨"PMC1".toList, "syn1234567".toList, "c1".toList⟩,
              ⟨"PMC2".toList, "syn7654321".toList, "c2".toList⟩ ]) ]).map
        rowKey).toFinset.card ∧
    ((annotateRows
        [ ("results.csv.x1.xml.gz.csv".toList,
            [ ⟨"PMC1".toList, "syn1234567".toList, "c1".toList⟩,
              ⟨"PMC1".toList, "syn1234567".toList, "c1".toList⟩ ]),
          ("results.csv.x2.xml.gz.csv".toList,
            [ ⟨"PMC1".toList, "syn1234567".toList, "c1".toList⟩,
              ⟨"PMC2".toList, "syn7654321".toList, "c2".toList⟩ ]) ]).map
        rowKey).toFinset.card = 2 :=
  ⟨(claim_C7 _).1, by decide⟩

/-- Concatenation of a list of chunks, modelling the full byte stream fed
to `_iter_articles`. -/
def concatAll : List (List Char) → List Char
  | [] => []
  | c :: cs => c ++ concatAll cs

theorem concatAll_append (a b : List (List Char)) :
    concatAll (a ++ b) = concatAll a ++ concatAll b := by
  induction a with
  | nil => rfl
  | cons c cs ih =>
    show c ++ concatAll (cs ++ b) = (c ++ concatAll cs) ++ concatAll b
    rw [ih, List.append_assoc]

/-- A well-formed article fragment: it starts with `<article `, ends with
`</article>`, and contains the closing marker nowhere else. -/
def wellFormedFrag (f : List Char) : Prop :=
  articleStart <+: f ∧ articleEnd <:+ f ∧
    ∀ i < f.length, occursAt articleEnd f i → i = f.length - 10

instance (f : List Char) : Decidable (wellFormedFrag f) := by
  unfold wellFormedFrag
  infer_instance

theorem wf_length {f : List Char} (h : wellFormedFrag f) : 10 ≤ f.length := by
  have hAE : articleEnd.length = 10 := rfl
  have := h.2.1.length_le
  rw [hAE] at this
  exact this

theorem prefix_append_of_le {p a b : List Char} (h : p <+: a ++ b)
    (hl : p.length ≤ a.length) : p <+: a := by
  rcases h with ⟨t, ht⟩
  have h1 : (p ++ t).take p.length = p := List.take_left p t
  have h2 : (a ++ b).take p.length = a.take p.length := by
    rw [List.take_append_eq_append_take, Nat.sub_eq_zero_of_le hl]
    simp
  have hp : a.take p.length = p := by rw [← h2, ← ht, h1]
  exact hp ▸ List.take_prefix p.length a

theorem append_prefix_of_le {p a b : List Char} (h : p <+: a ++ b)
    (hl : a.length ≤ p.length) : a <+: p := by
  rcases h with ⟨t, ht⟩
  have h1 : (p ++ t).take a.length = p.take a.length := by
    rw [List.take_append_eq_append_take, Nat.sub_eq_zero_of_le hl]
    simp
  have h2 : (a ++ b).take a.length = a := List.take_left a b
  have hp : p.take a.length = a := by rw [← h1, ht, h2]
  exact hp ▸ List.take_prefix a.length p

theorem containsSub_prefix_mono {pat p q : List Char} (hpq : p <+: q)
    (h : containsSub pat p = true) : containsSub pat q = true := by
  rcases (containsSub_iff pat p).1 h with ⟨i, hi⟩
  refine (containsSub_iff pat q).2 ⟨i, ?_⟩
  unfold occursAt at hi ⊢
  exact hi.trans (drop_prefix_mono i hpq)

theorem noEnd_mono {p q : List Char} (hpq : p <+: q)
    (hq : containsSub articleEnd q = false) :
    containsSub articleEnd p = false := by
  cases hb : containsSub articleEnd p
  · rfl
  · exact absurd (containsSub_prefix_mono hpq hb) (by simp [hq])

theorem noEnd_of_prefix_proper {f p : List Char} (h : wellFormedFrag f)
    (hpf : p <+: f) (hlt : p.length < f.length) :
    containsSub articleEnd p = false := by
  have h10 : 10 ≤ f.length := wf_length h
  cases hb : containsSub articleEnd p
  · rfl
  · exfalso
    rcases (containsSub_iff articleEnd p).1 hb with ⟨i, hi⟩
    have hAE : articleEnd ≠ [] := by decide
    have hib := occursAt_length hAE hi
    have hAE10 : articleEnd.length = 10 := rfl
    rw [hAE10] at hib
    have hif : occursAt articleEnd f i := by
      unfold occursAt at hi ⊢
      exact hi.trans (drop_prefix_mono i hpf)
    have := h.2.2 i (by omega) hif
    omega

theorem consumeLoop_noEnd {b : List Char}
    (h : containsSub articleEnd b = false) : consumeLoop b = ([], b) := by
  have hne : ¬ (containsSub articleStart b = true ∧
      containsSub articleEnd b = true) := by
    rintro ⟨-, he⟩
    rw [h] at he
    exact Bool.false_ne_true he
  rw [consumeLoop, dif_neg hne]

theorem findSub_start {f : List Char} (h : articleStart <+: f)
    (t : List Char) : findSub articleStart (f ++ t) = some 0 := by
  rw [findSub_some_iff]
  refine ⟨?_, fun j hj => absurd hj (Nat.not_lt_zero j)⟩
  unfold occursAt
  rw [List.drop_zero]
  exact h.trans (List.prefix_append f t)

theorem findSub_end {f : List Char} (h : wellFormedFrag f) (t : List Char) :
    findSub articleEnd (f ++ t) = some (f.length - 10) := by
  have h10 : 10 ≤ f.length := wf_length h
  have hAE10 : articleEnd.length = 10 := rfl
  rcases h.2.1 with ⟨u, hu⟩
  have hul : u.length + 10 = f.length := by
    have := congrArg List.length hu
    rw [List.length_append, hAE10] at this
    exact this
  rw [findSub_some_iff]
  constructor
  · unfold occursAt
    have hd : (f ++ t).drop (f.length - 10) = articleEnd ++ t := by
      have hu' : u.length = f.length - 10 := by omega
      rw [← hu', ← hu, List.append_assoc, List.drop_left]
    rw [hd]
    exact List.prefix_append _ _
  · intro m hm hocc
    unfold occursAt at hocc
    have hmf : m ≤ f.length := by omega
    rw [List.drop_append_of_le_length hmf] at hocc
    have hocc' : articleEnd <+: f.drop m := by
      apply prefix_append_of_le hocc
      rw [hAE10, List.length_drop]
      omega
    have := h.2.2 m (by omega) (by unfold occursAt; exact hocc')
    omega

theorem consume_wf_step {f : List Char} (h : wellFormedFrag f)
    (t : List Char) :
    consumeLoop (f ++ t) = (f :: (consumeLoop t).1, (consumeLoop t).2) := by
  have h10 : 10 ≤ f.length := wf_length h
  have hs : containsSub articleStart (f ++ t) = true := by
    unfold containsSub
    rw [findSub_start h.1 t]
    rfl
  have he : containsSub articleEnd (f ++ t) = true := by
    unfold containsSub
    rw [findSub_end h t]
    rfl
  rw [consumeLoop, dif_pos ⟨hs, he⟩]
  simp only [findSub_start h.1 t, Option.getD_some, List.drop_zero,
    Nat.zero_add, findSub_end h t]
  have harith : f.length - 10 + 10 = f.length := by omega
  rw [harith, List.take_left, List.drop_left]

/-- State of the residual buffer relative to the fragments not yet
emitted: a proper prefix of the next fragment, or, when no fragment
remains, a prefix of the trailing unclosed tail. -/
def bufState (G : List (List Char)) (g b : List Char) : Prop :=
  match G with
  | [] => b <+: g
  | f :: _ => b <+: f ∧ b.length < f.length

/-- Running the inner splitter loop on any prefix of a stream of
well-formed fragments followed by an end-marker-free tail emits exactly
the fragments completely contained in the prefix and leaves the rest as
residual buffer. -/
theorem consumeLoop_split (g : List Char)
    (hg : containsSub articleEnd g = false) :
    ∀ (G : List (List Char)), (∀ x ∈ G, wellFormedFrag x) →
    ∀ p, p <+: concatAll G ++ g →
    ∃ n, n ≤ G.length ∧
      concatAll (G.take n) <+: p ∧
      consumeLoop p = (G.take n, p.drop (concatAll (G.take n)).length) ∧
      bufState (G.drop n) g (p.drop (concatAll (G.take n)).length) := by
  intro G
  induction G with
  | nil =>
    intro _ p hp
    have hp' : p <+: g := by
      have h0 : concatAll ([] : List (List Char)) ++ g = g := rfl
      rwa [h0] at hp
    refine ⟨0, Nat.le_refl 0, List.nil_prefix, ?_, ?_⟩
    · exact consumeLoop_noEnd (noEnd_mono hp' hg)
    · exact hp'
  | cons f G' ih =>
    intro hwf p hp
    have hwff : wellFormedFrag f := hwf f (List.mem_cons_self f G')
    have hwf' : ∀ x ∈ G', wellFormedFrag x :=
      fun x hx => hwf x (List.mem_cons_of_mem f hx)
    have hp' : p <+: f ++ (concatAll G' ++ g) := by
      have hshape : concatAll (f :: G') ++ g = f ++ (concatAll G' ++ g) := by
        show (f ++ concatAll G') ++ g = f ++ (concatAll G' ++ g)
        rw [List.append_assoc]
      rwa [hshape] at hp
    by_cases hlen : f.length ≤ p.length
    · have hfp : f <+: p := append_prefix_of_le hp' hlen
      rcases hfp with ⟨q, hq⟩
      subst hq
      have hq' : q <+: concatAll G' ++ g := by
        have := drop_prefix_mono f.length hp'
        rwa [List.drop_left, List.drop_left] at this
      rcases ih hwf' q hq' with ⟨n, hn, hpre, hcl, hbs⟩
      have hdrop : (f ++ q).drop ((concatAll ((f :: G').take (n + 1))).length) =
          q.drop ((concatAll (G'.take n)).length) := by
        show (f ++ q).drop ((f ++ concatAll (G'.take n)).length) = _
        rw [List.length_append]
        have hdd : (f ++ q).drop (f.length + (concatAll (G'.take n)).length) =
            ((f ++ q).drop f.length).drop ((concatAll (G'.take n)).length) := by
          rw [List.drop_drop]
        rw [hdd, List.drop_left]
      refine ⟨n + 1, Nat.succ_le_succ hn, ?_, ?_, ?_⟩
      · show concatAll (f :: G'.take n) <+: f ++ q
        rcases hpre with ⟨r, hr⟩
        refine ⟨r, ?_⟩
        show (f ++ concatAll (G'.take n)) ++ r = f ++ q
        rw [List.append_assoc, hr]
      · rw [hdrop]
        show consumeLoop (f ++ q) =
          (f :: G'.take n, q.drop ((concatAll (G'.take n)).length))
        rw [consume_wf_step hwff, hcl]
      · rw [hdrop]
        exact hbs
    · have hlt : p.length < f.length := Nat.lt_of_not_le hlen
      have hpf : p <+: f := prefix_append_of_le hp' (Nat.le_of_lt hlt)
      refine ⟨0, Nat.zero_le _, List.nil_prefix, ?_, ?_⟩
      · exact consumeLoop_noEnd (noEnd_of_prefix_proper hwff hpf hlt)
      · exact ⟨hpf, hlt⟩

/-- The chunked read loop reconstructs exactly the well-formed fragments
of the stream, regardless of how the stream is cut into non-empty chunks,
silently dropping an end-marker-free tail. -/
theorem iterChunks_exact (g : List Char)
    (hg : containsSub articleEnd g = false) :
    ∀ (cs G : List (List Char)) (b : List Char),
      (∀ x ∈ G, wellFormedFrag x) → (∀ c ∈ cs, c ≠ []) →
      b ++ concatAll cs = concatAll G ++ g → bufState G g b →
      iterChunks cs b = G := by
  intro cs
  induction cs with
  | nil =>
    intro G b hwf _ heq hbs
    rcases G with _ | ⟨f, G'⟩
    · have hb : b = g := by simpa [concatAll] using heq
      subst hb
      show (consumeLoop b).1 = []
      rw [consumeLoop_noEnd hg]
    · exfalso
      rcases hbs with ⟨-, hlt⟩
      have hl := congrArg List.length heq
      simp only [concatAll, List.length_append, List.length_nil] at hl
      omega
  | cons c cs' ih =>
    intro G b hwf hcs heq hbs
    have hc : c ≠ [] := hcs c (List.mem_cons_self c cs')
    have hcs' : ∀ x ∈ cs', x ≠ [] := fun x hx => hcs x (List.mem_cons_of_mem c hx)
    rcases c with _ | ⟨x, xs⟩
    · exact absurd rfl hc
    simp only [concatAll] at heq
    have hp : b ++ (x :: xs) <+: concatAll G ++ g := by
      refine ⟨concatAll cs', ?_⟩
      rw [List.append_assoc]
      exact heq
    rcases consumeLoop_split g hg G hwf (b ++ (x :: xs)) hp with
      ⟨n, hn, hpre, hcl, hbs'⟩
    show ((consumeLoop (b ++ (x :: xs))).1 ++
      iterChunks cs' (consumeLoop (b ++ (x :: xs))).2) = G
    rw [hcl]
    have hr : concatAll (G.take n) ++
        (b ++ (x :: xs)).drop ((concatAll (G.take n)).length) =
        b ++ (x :: xs) := by
      rcases hpre with ⟨r, hrr⟩
      rw [← hrr, List.drop_left]
    have heq' : (b ++ (x :: xs)).drop ((concatAll (G.take n)).length) ++
        concatAll cs' = concatAll (G.drop n) ++ g := by
      have h2 : concatAll (G.take n) ++
          ((b ++ (x :: xs)).drop ((concatAll (G.take n)).length) ++
            concatAll cs') =
          concatAll (G.take n) ++ (concatAll (G.drop n) ++ g) := by
        rw [← List.append_assoc, hr, ← List.append_assoc, ← concatAll_append,
          List.take_append_drop, List.append_assoc]
        exact heq
      exact List.append_cancel_left h2
    rw [ih (G.drop n) _ (fun y hy => hwf y (List.mem_of_mem_drop hy)) hcs'
      heq' hbs']
    exact List.take_append_drop n G

/-- C2: for every chunking (into non-empty read chunks) of a stream that
is the concatenation of two well-formed `<article ...>...</article>`
fragments, `_iter_articles` yields exactly those two fragments, each
starting with `<article ` and ending with `</article>`, with no character
lost or duplicated at the seam; and when the stream instead carries a
trailing fragment that opens with `<article ` but has no `</article>`
before end of stream, that trailing fragment is silently dropped. -/
theorem claim_C2 (f1 f2 g : List Char) (chunks : List (List Char))
    (h1 : wellFormedFrag f1) (h2 : wellFormedFrag f2)
    (hgs : articleStart <+: g) (hg : containsSub articleEnd g = false)
    (hch : ∀ c ∈ chunks, c ≠ []) :
    (concatAll chunks = f1 ++ f2 →
      iter_articles chunks = [f1, f2] ∧
      articleStart <+: f1 ∧ articleEnd <:+ f1 ∧
      articleStart <+: f2 ∧ articleEnd <:+ f2 ∧
      concatAll (iter_articles chunks) = concatAll chunks) ∧
    (concatAll chunks = f1 ++ f2 ++ g →
      iter_articles chunks = [f1, f2]) := by
  have hwfL : ∀ x ∈ [f1, f2], wellFormedFrag x := by
    intro x hx
    simp only [List.mem_cons, List.not_mem_nil, or_false] at hx
    rcases hx with rfl | rfl
    · exact h1
    · exact h2
  have hbsL : bufState [f1, f2] [] [] :=
    ⟨List.nil_prefix, by
      have := wf_length h1; simp only [List.length_nil]; omega⟩
  have hbsG : bufState [f1, f2] g [] :=
    ⟨List.nil_prefix, by
      have := wf_length h1; simp only [List.length_nil]; omega⟩
  have hg0 : containsSub articleEnd [] = false := by decide
  constructor
  · intro hstream
    have hiter : iter_articles chunks = [f1, f2] := by
      show iterChunks chunks [] = [f1, f2]
      apply iterChunks_exact [] hg0 chunks [f1, f2] [] hwfL hch ?_ hbsL
      rw [List.nil_append, hstream]
      show f1 ++ f2 = (f1 ++ (f2 ++ [])) ++ []
      rw [List.append_nil, List.append_nil]
    refine ⟨hiter, h1.1, h1.2.1, h2.1, h2.2.1, ?_⟩
    rw [hiter, hstream]
    show f1 ++ (f2 ++ []) = f1 ++ f2
    rw [List.append_nil]
  · intro hstream
    show iterChunks chunks [] = [f1, f2]
    apply iterChunks_exact g hg chunks [f1, f2] [] hwfL hch ?_ hbsG
    rw [List.nil_append, hstream]
    show (f1 ++ f2) ++ g = (f1 ++ (f2 ++ [])) ++ g
    rw [List.append_nil]

/-- Witness for C2: a two-article stream cut mid-way through the first
closing marker is split into exactly the two articles, and the same
stream followed by an unclosed trailing `<article ` fragment still yields
only the two complete articles. -/
theorem claim_C2_witness :
    iter_articles ["<article id=\"a\">Aaa</art".toList,
        "icle><article id=\"b\">Bbb</article>".toList] =
      ["<article id=\"a\">Aaa</article>".toList,
       "<article id=\"b\">Bbb</article>".toList] ∧
    iter_articles ["<article id=\"a\">Aaa</art".toList,
        "icle><article id=\"b\">Bbb</article><article id=".toList,
        "\"c\">Ccc".toList] =
      ["<article id=\"a\">Aaa</article>".toList,
       "<article id=\"b\">Bbb</article>".toList] := by
  constructor
  · exact ((claim_C2 "<article id=\"a\">Aaa</article>".toList
      "<article id=\"b\">Bbb</article>".toList
      "<article id=\"c\">Ccc".toList
      ["<article id=\"a\">Aaa</art".toList,
       "icle><article id=\"b\">Bbb</article>".toList]
      (by decide) (by decide) (by decide) (by decide) (by decide)).1
      (by decide)).1
  · exact (claim_C2 "<article id=\"a\">Aaa</article>".toList
      "<article id=\"b\">Bbb</article>".toList
      "<article id=\"c\">Ccc".toList
      ["<article id=\"a\">Aaa</art".toList,
       "icle><article id=\"b\">Bbb</article><article id=".toList,
       "\"c\">Ccc".toList]
      (by decide) (by decide) (by decide) (by decide) (by decide)).2
      (by decide)

end SynMiner
